import Mathlib

/-!
Verification of the merge/cache engine of `redisConnections/redisConnection.py`.

The Python code manipulates JSON values (dicts, lists, strings) loaded with
`json.loads`.  We embed JSON values as the inductive type `JVal`; a decoded
JSON object is an association list `List (String × JVal)` in insertion order
(keys of a real Python dict are unique; lookups below always take the first
matching pair, which coincides with dict semantics on duplicate-free lists).

Caveats recorded once here instead of at every definition:
* Python raises on shape errors (`.get` on a non-dict, iterating `None`,
  `impl['vendor']` on a dict without the key, joining non-strings).  The
  embedding instead returns a neutral default (`[]`, `""`).  Theorems about
  well-formedness-sensitive behaviour therefore carry explicit shape
  hypotheses so that they only speak about inputs on which the Python code
  does not raise.
* `str()` of Python containers (used only when a module identity field holds
  a list/dict, which the data model excludes) is not modelled; `pyStr`
  returns `""` there.
* `dict.get(k)` returns `None` both for an absent key and for a key bound to
  JSON `null`; `getNonNull` reproduces that conflation.
-/

inductive JVal where
  | null
  | bool (b : Bool)
  | num (n : Int)
  | str (s : String)
  | arr (elems : List JVal)
  | obj (fields : List (String × JVal))

abbrev JObj := List (String × JVal)

/-- First-match association lookup, shared by every keyed structure in the
model (dicts and the Redis keyspaces). -/
def assocGet {α : Type} (l : List (String × α)) (k : String) : Option α :=
  (l.find? (fun p => p.1 == k)).map (·.2)

/-- Keyed assignment `d[k] = v`: overwrite in place, or append a fresh
key — both Python dict assignment and Redis `SET`. -/
def assocSet {α : Type} : List (String × α) → String → α → List (String × α)
  | [], k, v => [(k, v)]
  | (k', v') :: rest, k, v =>
    if k' = k then (k, v) :: rest else (k', v') :: assocSet rest k v

/-- First-match association lookup: `dict[k]` / `dict.get(k)` presence. -/
def jlookup (m : JObj) (k : String) : Option JVal :=
  assocGet m k

/-- `module.get(k)` where JSON `null` is conflated with absence, exactly as
Python's `None` is. -/
def getNonNull (m : JObj) (k : String) : Option JVal :=
  match jlookup m k with
  | some JVal.null => none
  | some v => some v
  | none => none

/-- `module.get(k, [])` for a key expected to hold a list. -/
def getList (m : JObj) (k : String) : List JVal :=
  match jlookup m k with
  | some (JVal.arr xs) => xs
  | _ => []

/-- `x.get('implementation', [])` on the value of the `implementations`
field. -/
def implList (v : JVal) : List JVal :=
  match v with
  | JVal.obj fs =>
    match jlookup fs "implementation" with
    | some (JVal.arr xs) => xs
    | _ => []
  | _ => []

/-- `module.get('implementations', {}).get('implementation', [])`. -/
def getImpls (m : JObj) : List JVal :=
  match jlookup m "implementations" with
  | some v => implList v
  | none => []

/-- `dependent.get('name')`: the `name` field of a list entry.  The data
model fixes names to be strings; a missing or `null` name is Python's
`None`, modelled as `none`. -/
def depName (v : JVal) : Option String :=
  match v with
  | JVal.obj fs =>
    match jlookup fs "name" with
    | some (JVal.str s) => some s
    | _ => none
  | _ => none

/-- `impl[k]` for one of the four implementation identity fields, which the
code requires to be strings. -/
def getStrField (impl : JVal) (k : String) : String :=
  match impl with
  | JVal.obj fs =>
    match jlookup fs k with
    | some (JVal.str s) => s
    | _ => ""
  | _ => ""

/-- Single-character `str.replace`, working on the character list. -/
def replaceChar (a b : Char) (s : List Char) : List Char :=
  s.map (fun c => if c = a then b else c)

def pyReplace (s : String) (a b : Char) : String :=
  String.mk (replaceChar a b s.data)

/-- The vendor-partition key builder shared by `create_implementation_key`
(lines 174-176) and the inline key construction of `populate_implementation`
(lines 197-204): each segment has spaces replaced by `#`, segments joined
by `/`. -/
def vendorKey (v p sv sf : String) : String :=
  pyReplace v ' ' '#' ++ "/" ++ pyReplace p ' ' '#' ++ "/" ++
    pyReplace sv ' ' '#' ++ "/" ++ pyReplace sf ' ' '#'

/-- `RedisConnection.create_implementation_key`. -/
def create_implementation_key (impl : JVal) : String :=
  vendorKey (getStrField impl "vendor") (getStrField impl "platform")
    (getStrField impl "software-version") (getStrField impl "software-flavor")

/-- The comparison key computed inside `delete_implementation` (line 153):
`','.join([impl[prop] for prop in impl_param_names])` — comma-joined and
without any space replacement. -/
def commaKey (impl : JVal) : String :=
  getStrField impl "vendor" ++ "," ++ getStrField impl "platform" ++ "," ++
    getStrField impl "software-version" ++ "," ++ getStrField impl "software-flavor"

/-- Python's `str()` as used by `'{}'.format(...)` on module identity
fields: `str(None) = 'None'`; containers are not modelled. -/
def pyStr (v : Option JVal) : String :=
  match v with
  | none => "None"
  | some JVal.null => "None"
  | some (JVal.str s) => s
  | some (JVal.num n) => toString n
  | some (JVal.bool b) => if b then "True" else "False"
  | some (JVal.arr _) => ""
  | some (JVal.obj _) => ""

/-- `RedisConnection._create_module_key` (lines 171-172): pure string
formatting, with no validation of the three identity fields. -/
def create_module_key (m : JObj) : String :=
  pyStr (jlookup m "name") ++ "@" ++ pyStr (jlookup m "revision") ++ "/" ++
    pyStr (jlookup m "organization")

/-- Replace the value of the first pair carrying key `k` (Python keys are
unique, so this is exactly `d[k] = v` on a present key; on an absent key it
is the identity, and every use below guards on presence). -/
def setFirst : List (String × JVal) → String → JVal → List (String × JVal)
  | [], _, _ => []
  | (k', v') :: rest, k, v =>
    if k' = k then (k, v) :: rest else (k', v') :: setFirst rest k v

/-- `dict.pop(k, None)`: drop the pair with key `k`. -/
def eraseField (fs : JObj) (k : String) : JObj :=
  fs.filter (fun p => !(p.1 == k))

/-- Shape guard used as a theorem hypothesis: the value at `k`, if present,
is a JSON array (the only shape on which the Python list-merging code does
not raise). -/
def isListAt (m : JObj) (k : String) : Bool :=
  match jlookup m k with
  | some (JVal.arr _) => true
  | none => true
  | some _ => false

/-- Key iteration order of `{**new, **existing}.keys()`: first occurrences
kept, later duplicates dropped. -/
def dedupKeysGo (seen : List String) : List String → List String
  | [] => []
  | k :: ks =>
    if k ∈ seen then dedupKeysGo seen ks
    else k :: dedupKeysGo (seen ++ [k]) ks

def dedupKeys (l : List String) : List String :=
  dedupKeysGo [] l

/-- The `implementations` loop of `update_module_properties` (lines 50-54):
walk the incoming implementation references, appending those whose composite
key is not yet present; `names` is the running key list, `acc` the running
reference list (an alias of the existing list in Python). -/
def mergeImplsGo (names : List String) (acc : List JVal) : List JVal → List JVal
  | [] => acc
  | p :: rest =>
    let k := create_implementation_key p
    if k ∈ names then mergeImplsGo names acc rest
    else mergeImplsGo (names ++ [k]) (acc ++ [p]) rest

def mergeImpls (newL exL : List JVal) : List JVal :=
  mergeImplsGo (exL.map create_implementation_key) exL newL

/-- Python's `list.index`: position of the first occurrence. -/
def idxOf (n : Option String) : List (Option String) → Nat
  | [] => 0
  | a :: rest => if a = n then 0 else idxOf n rest + 1

/-- The `dependents`/`dependencies` loop (lines 61-69): the name list
`names` is computed once and only appended to; a matching incoming entry
replaces the entry at the first index of its name, a novel one is
appended. -/
def mergeDepsGo (names : List (Option String)) (acc : List JVal) : List JVal → List JVal
  | [] => acc
  | p :: rest =>
    let n := depName p
    if n ∈ names then mergeDepsGo names (acc.set (idxOf n names) p) rest
    else mergeDepsGo (names ++ [n]) (acc ++ [p]) rest

/-- Lines 55-69: `if not existing_prop_list: existing_module[key] =
new_prop_list` short-circuits the loop when the existing list is empty or
absent. -/
def mergeDeps (newL exL : List JVal) : List JVal :=
  if exL.isEmpty then newL else mergeDepsGo (exL.map depName) exL newL

/-- The `implementations` branch (lines 46-54).  In Python the appends go
through the alias `existing_impls =
existing_module.get('implementations', {}).get('implementation', [])`;
when the existing record lacks the nested list, the appends land in a fresh
temporary list and the existing record is left untouched — in particular an
incoming-only `implementations` field is dropped. -/
def mergeImplField (new ex : JObj) : Option JVal :=
  match jlookup ex "implementations" with
  | some (JVal.obj fs) =>
    match jlookup fs "implementation" with
    | some (JVal.arr exImpls) =>
      some (JVal.obj (setFirst fs "implementation"
        (JVal.arr (mergeImpls (getImpls new) exImpls))))
    | _ => some (JVal.obj fs)
  | some v => some v
  | none => none

/-- Per-key merge rule of `update_module_properties` (lines 45-74).  The
source guards the plain-field write with `existing_value != new_value`;
skipping a write of an equal value leaves the same record, so the guard is
content-neutral and not reproduced. -/
def mergeField (new ex : JObj) (k : String) : Option JVal :=
  if k = "implementations" then
    mergeImplField new ex
  else if k = "dependents" ∨ k = "dependencies" then
    some (JVal.arr (mergeDeps (getList new k) (getList ex k)))
  else
    match getNonNull new k with
    | some v => some v
    | none => jlookup ex k

/-- `RedisConnection.update_module_properties` (lines 43-76): iterate the
union of the key sets, applying the per-key rule; each iteration touches
only the entry at its own key, so the record is the keywise image. -/
def update_module_properties (new ex : JObj) : JObj :=
  (dedupKeys ((new ++ ex).map Prod.fst)).filterMap
    (fun k => (mergeField new ex k).map (fun v => (k, v)))

/-! ## The modules store

Redis is modelled as an association list keyed by strings; `scan_iter` is
the list itself (Redis keys are unique, so duplicate-free lists are the
meaningful states, but no lemma below needs that).  Values are the decoded
JSON documents.  `SET` always succeeds in the model, matching the spec's
reading of `set_redis_module`'s result on a reachable store. -/

abbrev MStore := List (String × JVal)

/-- Redis `SET`: overwrite in place, or append a fresh key. -/
def storeSet (st : MStore) (k : String) (v : JVal) : MStore :=
  assocSet st k v

def storeGet (st : MStore) (k : String) : Option JVal :=
  assocGet st k

/-- `get_module` followed by `json.loads`: an absent key reads as `{}`. -/
def storeGetD (st : MStore) (k : String) : JVal :=
  (storeGet st k).getD (JVal.obj [])

/-- The field list of a stored document (the loaded value is a dict for
every record this engine writes; a non-object would make Python raise). -/
def objFields : JVal → JObj
  | JVal.obj fs => fs
  | _ => []

def storedModFields (st : MStore) (k : String) : JObj :=
  objFields (storeGetD st k)

/-- `redis_module == '{}'`: the sentinel test of `populate_modules`
(line 90), which conflates an absent key with a stored empty object. -/
def isEmptyObj : JVal → Bool
  | JVal.obj [] => true
  | _ => false

/-- One iteration of `populate_modules` (lines 87-96). -/
def populate_module (st : MStore) (m : JObj) : MStore :=
  let key := create_module_key m
  let stored := storeGetD st key
  let updated := if isEmptyObj stored then m
                 else update_module_properties m (objFields stored)
  storeSet st key (JVal.obj updated)

/-- `RedisConnection.populate_modules` (lines 78-96). -/
def populate_modules (st : MStore) (ms : List JObj) : MStore :=
  ms.foldl populate_module st

/-- `RedisConnection.reload_modules_cache` (lines 115-123): scan every key,
keep those different from `modules-data` and free of `:`, assemble the
aggregate object and store it under `modules-data`. -/
def reload_modules_cache (st : MStore) : MStore :=
  let agg := JVal.obj (st.filter
    (fun p => !(p.1 == "modules-data") && !(p.1.data.contains ':')))
  storeSet st "modules-data" agg

/-- `RedisConnection.delete_dependent` (lines 129-143): drop the first
dependent whose `name` equals the argument, re-store only on a hit. -/
def delete_dependent (st : MStore) (key name : String) : MStore × Bool :=
  let fs := storedModFields st key
  let deps := getList fs "dependents"
  match deps.findIdx? (fun d => depName d == some name) with
  | none => (st, false)
  | some i =>
    (storeSet st key (JVal.obj (setFirst fs "dependents"
      (JVal.arr (deps.eraseIdx i)))), true)

/-- Write back the mutated implementation list through the alias
`redis_module['implementations']['implementation']`: the nested list is
replaced in place.  Only reached when the list was non-empty, i.e. when
the record really has the nested object/array shape; the fallback arm is
unreachable there. -/
def setImplList (fs : JObj) (newList : List JVal) : JObj :=
  match jlookup fs "implementations" with
  | some (JVal.obj ifs) =>
    setFirst fs "implementations" (JVal.obj (setFirst ifs "implementation"
      (JVal.arr newList)))
  | _ => fs

/-- `RedisConnection.delete_implementation` (lines 145-159): drop the first
implementation whose comma-joined key equals the argument, re-store only on
a hit.  `list.remove` removes the first element equal to the hit; an earlier
equal element would already have matched, so that is the hit's index. -/
def delete_implementation (st : MStore) (key arg : String) : MStore × Bool :=
  let fs := storedModFields st key
  let impls := getImpls fs
  match impls.findIdx? (fun impl => commaKey impl == arg) with
  | some i => (storeSet st key (JVal.obj (setImplList fs (impls.eraseIdx i))), true)
  | none => (st, false)

/-- `RedisConnection.delete_expires` (lines 161-169): load (or default to
`{}`), pop `expires`, and re-store unconditionally; the returned value is
the store-write result. -/
def delete_expires (st : MStore) (m : JObj) : MStore × Bool :=
  let key := create_module_key m
  let fs := storedModFields st key
  (storeSet st key (JVal.obj (eraseField fs "expires")), true)

/-! ## The vendors store -/

/-- Python `str.split('/')` on the character list: `''.split('/') = ['']`,
separators at the ends produce empty segments. -/
def splitSlash : List Char → List (List Char)
  | [] => [[]]
  | c :: rest =>
    let r := splitSlash rest
    if c = '/' then [] :: r
    else
      match r with
      | s :: ss => (c :: s) :: ss
      | [] => [[c]]

/-- The decoding step of `create_vendors_data_dict` (line 234):
`key.replace('#', ' ').split('/')`. -/
def decodeVendorKey (key : String) : List String :=
  (splitSlash (replaceChar '#' ' ' key.data)).map String.mk

/-- The nested vendor→platform→software-version→software-flavor blocks
consumed by `populate_implementation`; field accesses in the source are
fixed (`.get('name')`, `.get('platforms').get('platform')`, ...), so the
blocks are embedded as structures.  `protocols` is the value of
`software_flavor.get('protocols', {})` and `modules` the value of
`software_flavor.get('modules', {}).get('module', [])`. -/
structure SwFlavor where
  name : String
  protocols : JVal
  modules : List JObj

structure SwVersion where
  name : String
  flavors : List SwFlavor

structure Platform where
  name : String
  versions : List SwVersion

structure VendorBlock where
  name : String
  platforms : List Platform

/-- One flat record per leaf tuple, as accumulated in the local `data`
dict of `populate_implementation`. -/
structure LeafData where
  protocols : JVal
  modules : List JObj

abbrev VStore := List (String × LeafData)

def vsGet (st : VStore) (k : String) : Option LeafData :=
  assocGet st k

def vsSet (st : VStore) (k : String) (v : LeafData) : VStore :=
  assocSet st k v

/-- Append `ms` to the modules list of the (present) entry at `k`:
`data[key]['modules']['module'] += ...`. -/
def bumpLeaf : List (String × LeafData) → String → List JObj → List (String × LeafData)
  | [], _, _ => []
  | (k', ld) :: rest, k, ms =>
    if k' = k then (k', ⟨ld.protocols, ld.modules ++ ms⟩) :: rest
    else (k', ld) :: bumpLeaf rest k ms

/-- One flavor visit of the accumulation loop (lines 196-209).  A present
entry is always the truthy dict `{'protocols': ..., 'modules': ...}`, so
`if not data.get(key)` is exactly an absence test. -/
def addFlavor (d : List (String × LeafData)) (key : String) (fl : SwFlavor) :
    List (String × LeafData) :=
  if (d.find? (fun p => p.1 == key)).isSome then bumpLeaf d key fl.modules
  else d ++ [(key, ⟨fl.protocols, fl.modules⟩)]

/-- The in-memory fold of `populate_implementation` (lines 195-209). -/
def accumulate (blocks : List VendorBlock) : List (String × LeafData) :=
  blocks.foldl (fun d blk =>
    blk.platforms.foldl (fun d pl =>
      pl.versions.foldl (fun d sv =>
        sv.flavors.foldl (fun d fl =>
          addFlavor d (vendorKey blk.name pl.name sv.name fl.name) fl) d) d) d) []

/-- The `module` branch of `RedisConnection.merge_data` (lines 260-264):
key both lists by the canonical module key (later entries overwriting
earlier ones), let the new dict overwrite the old one, and keep the value
order of the resulting dict. -/
def merge_data_modules (old new : List JObj) : List JObj :=
  (new.foldl (fun d m => assocSet d (create_module_key m) m)
    (old.foldl (fun d m => assocSet d (create_module_key m) m) [])).map (·.2)

/-- `RedisConnection.populate_implementation` (lines 187-219): accumulate,
then merge each leaf against its stored record — `merge_data` rebuilds the
module list and `merged_data = existing_data` keeps the stored `protocols`
— or, for a leaf key with no stored record (`existing_json == '{}'`), write
the accumulated data unchanged. -/
def writeLeaf (st : VStore) (p : String × LeafData) : VStore :=
  match vsGet st p.1 with
  | none => vsSet st p.1 p.2
  | some ex => vsSet st p.1 ⟨ex.protocols, merge_data_modules ex.modules p.2.modules⟩

def populate_implementation (st : VStore) (blocks : List VendorBlock) : VStore :=
  (accumulate blocks).foldl writeLeaf st

/-! ## Association-list lemmas -/

theorem assocGet_cons {α : Type} (k' : String) (v' : α) (l : List (String × α)) (k : String) :
    assocGet ((k', v') :: l) k = if k' = k then some v' else assocGet l k := by
  by_cases h : k' = k
  · simp [assocGet, List.find?, h]
  · simp only [assocGet, List.find?]
    have : (k' == k) = false := by simpa using h
    simp [this, h, assocGet]

theorem assocGet_set_self {α : Type} (l : List (String × α)) (k : String) (v : α) :
    assocGet (assocSet l k v) k = some v := by
  induction l with
  | nil => simp [assocSet, assocGet_cons]
  | cons p rest ih =>
    obtain ⟨k', v'⟩ := p
    by_cases h : k' = k
    · subst h
      simp [assocSet, assocGet_cons]
    · simp [assocSet, h, assocGet_cons, ih]

theorem assocGet_set_other {α : Type} (l : List (String × α)) (k k' : String) (v : α)
    (h : k' ≠ k) : assocGet (assocSet l k v) k' = assocGet l k' := by
  have hkk : ¬ k = k' := fun hh => h hh.symm
  induction l with
  | nil =>
    show assocGet [(k, v)] k' = assocGet [] k'
    rw [assocGet_cons, if_neg hkk]
  | cons p rest ih =>
    obtain ⟨k₀, v₀⟩ := p
    by_cases h₀ : k₀ = k
    · have h₀k : ¬ k₀ = k' := by rw [h₀]; exact hkk
      rw [show assocSet ((k₀, v₀) :: rest) k v = (k, v) :: rest from by simp [assocSet, h₀]]
      rw [assocGet_cons, if_neg hkk, assocGet_cons, if_neg h₀k]
    · rw [show assocSet ((k₀, v₀) :: rest) k v = (k₀, v₀) :: assocSet rest k v from by
        simp [assocSet, h₀]]
      rw [assocGet_cons, assocGet_cons, ih]

theorem assocSet_assocSet {α : Type} (l : List (String × α)) (k : String) (v w : α) :
    assocSet (assocSet l k v) k w = assocSet l k w := by
  induction l with
  | nil => simp [assocSet]
  | cons p rest ih =>
    obtain ⟨k₀, v₀⟩ := p
    by_cases h₀ : k₀ = k
    · subst h₀
      simp [assocSet]
    · simp [assocSet, h₀, ih]

/-! ## `setFirst` lemmas -/

theorem jlookup_setFirst_self (fs : JObj) (k : String) (v w : JVal)
    (h : jlookup fs k = some w) : jlookup (setFirst fs k v) k = some v := by
  induction fs with
  | nil => simp [jlookup, assocGet] at h
  | cons p rest ih =>
    obtain ⟨k₀, v₀⟩ := p
    by_cases h₀ : k₀ = k
    · subst h₀
      simp [setFirst, jlookup, assocGet_cons]
    · rw [jlookup, assocGet_cons] at h
      rw [if_neg h₀] at h
      rw [show setFirst ((k₀, v₀) :: rest) k v = (k₀, v₀) :: setFirst rest k v from by
        simp [setFirst, h₀]]
      rw [jlookup, assocGet_cons, if_neg h₀]
      exact ih h

theorem jlookup_setFirst_other (fs : JObj) (k k' : String) (v : JVal)
    (h : k' ≠ k) : jlookup (setFirst fs k v) k' = jlookup fs k' := by
  have hkk : ¬ k = k' := fun hh => h hh.symm
  induction fs with
  | nil => simp [setFirst]
  | cons p rest ih =>
    obtain ⟨k₀, v₀⟩ := p
    by_cases h₀ : k₀ = k
    · have h₀k : ¬ k₀ = k' := by rw [h₀]; exact hkk
      rw [show setFirst ((k₀, v₀) :: rest) k v = (k, v) :: rest from by simp [setFirst, h₀]]
      rw [jlookup, assocGet_cons, if_neg hkk, jlookup, assocGet_cons, if_neg h₀k]
    · rw [show setFirst ((k₀, v₀) :: rest) k v = (k₀, v₀) :: setFirst rest k v from by
        simp [setFirst, h₀]]
      have ih' : assocGet (setFirst rest k v) k' = assocGet rest k' := ih
      rw [jlookup, assocGet_cons, jlookup, assocGet_cons, ih']

theorem setFirst_self (fs : JObj) (k : String) (v : JVal)
    (h : jlookup fs k = some v) : setFirst fs k v = fs := by
  induction fs with
  | nil => simp [jlookup, assocGet] at h
  | cons p rest ih =>
    obtain ⟨k₀, v₀⟩ := p
    rw [jlookup, assocGet_cons] at h
    by_cases h₀ : k₀ = k
    · subst h₀
      rw [if_pos rfl] at h
      have hv : v₀ = v := by
        exact Option.some_inj.mp h
      subst hv
      simp [setFirst]
    · rw [if_neg h₀] at h
      simp [setFirst, h₀, ih h]

theorem setFirst_setFirst (fs : JObj) (k : String) (v w : JVal) :
    setFirst (setFirst fs k v) k w = setFirst fs k w := by
  induction fs with
  | nil => simp [setFirst]
  | cons p rest ih =>
    obtain ⟨k₀, v₀⟩ := p
    by_cases h₀ : k₀ = k
    · subst h₀
      simp [setFirst]
    · simp [setFirst, h₀, ih]

/-! ## Key-union lemmas -/

theorem mem_dedupKeysGo (l : List String) : ∀ (seen : List String) (k : String),
    k ∈ dedupKeysGo seen l ↔ k ∈ l ∧ k ∉ seen := by
  induction l with
  | nil => intro seen k; simp [dedupKeysGo]
  | cons a rest ih =>
    intro seen k
    by_cases ha : a ∈ seen
    · rw [dedupKeysGo, if_pos ha, ih]
      constructor
      · rintro ⟨hk, hs⟩
        exact ⟨List.mem_cons_of_mem _ hk, hs⟩
      · rintro ⟨hk, hs⟩
        rcases List.mem_cons.mp hk with rfl | hk
        · exact absurd ha hs
        · exact ⟨hk, hs⟩
    · rw [dedupKeysGo, if_neg ha]
      constructor
      · intro hmem
        rcases List.mem_cons.mp hmem with rfl | hmem
        · exact ⟨List.mem_cons_self _ _, ha⟩
        · rcases (ih _ _).mp hmem with ⟨hk, hs⟩
          constructor
          · exact List.mem_cons_of_mem _ hk
          · intro hkseen
            exact hs (by simp [hkseen])
      · rintro ⟨hk, hs⟩
        rcases List.mem_cons.mp hk with rfl | hk
        · exact List.mem_cons_self _ _
        · by_cases hka : k = a
          · subst hka; exact List.mem_cons_self _ _
          · refine List.mem_cons_of_mem _ ((ih _ _).mpr ⟨hk, ?_⟩)
            simp [hs, hka]

theorem nodup_dedupKeysGo (l : List String) : ∀ (seen : List String),
    (dedupKeysGo seen l).Nodup := by
  induction l with
  | nil => intro seen; simp [dedupKeysGo]
  | cons a rest ih =>
    intro seen
    by_cases ha : a ∈ seen
    · rw [dedupKeysGo, if_pos ha]; exact ih _
    · rw [dedupKeysGo, if_neg ha]
      refine List.Nodup.cons ?_ (ih _)
      intro hmem
      rcases (mem_dedupKeysGo _ _ _).mp hmem with ⟨_, hs⟩
      exact hs (by simp)

theorem mem_dedupKeys (l : List String) (k : String) : k ∈ dedupKeys l ↔ k ∈ l := by
  rw [dedupKeys, mem_dedupKeysGo]
  simp

theorem nodup_dedupKeys (l : List String) : (dedupKeys l).Nodup :=
  nodup_dedupKeysGo l []

/-- Lookup in a record assembled from a duplicate-free key list: each key
contributes its own (possibly absent) merged value. -/
theorem jlookup_keyed_filterMap (f : String → Option JVal) :
    ∀ (ks : List String), ks.Nodup → ∀ (k : String),
      jlookup (ks.filterMap (fun k' => (f k').map (fun v => (k', v)))) k
        = if k ∈ ks then f k else none := by
  intro ks
  induction ks with
  | nil => intro _ k; simp [jlookup, assocGet]
  | cons a rest ih =>
    intro hnd k
    have hnd' := hnd.of_cons
    have hane : a ∉ rest := by
      intro hmem; exact (List.nodup_cons.mp hnd).1 hmem
    rw [List.filterMap_cons]
    cases hfa : f a with
    | none =>
      simp only [Option.map_none']
      rw [ih hnd' k]
      by_cases hk : k = a
      · subst hk
        simp [hane, hfa]
      · simp [hk]
    | some v =>
      simp only [Option.map_some']
      rw [jlookup, assocGet_cons]
      by_cases hk : a = k
      · subst hk
        simp [hfa]
      · rw [if_neg hk, ← jlookup, ih hnd' k]
        have : ¬ k = a := fun hh => hk hh.symm
        simp [this]

/-- The record produced by `update_module_properties` is the keywise image
of the per-key merge rule over the union of the two key sets. -/
theorem jlookup_update (new ex : JObj) (k : String) :
    jlookup (update_module_properties new ex) k
      = if k ∈ (new ++ ex).map Prod.fst then mergeField new ex k else none := by
  rw [update_module_properties,
    jlookup_keyed_filterMap (mergeField new ex) _ (nodup_dedupKeys _) k]
  by_cases hmem : k ∈ (new ++ ex).map Prod.fst
  · rw [if_pos ((mem_dedupKeys _ _).mpr hmem), if_pos hmem]
  · rw [if_neg (fun hh => hmem ((mem_dedupKeys _ _).mp hh)), if_neg hmem]

/-! ## The dependents/dependencies merge rule, in closed form -/

/-- Helper: writing back the element already at a position is a no-op. -/
theorem set_getElem_self {α : Type} : ∀ (l : List α) (i : Nat) (h : i < l.length),
    l.set i l[i] = l := by
  intro l
  induction l with
  | nil => intro i h; simp at h
  | cons a rest ih =>
    intro i h
    cases i with
    | zero => simp
    | succ j =>
      have hj : j < rest.length := by simpa using h
      simp [List.set_cons_succ, ih j hj]

theorem idxOf_lt_length {n : Option String} : ∀ {l : List (Option String)},
    n ∈ l → idxOf n l < l.length := by
  intro l
  induction l with
  | nil => intro h; simp at h
  | cons a rest ih =>
    intro h
    by_cases ha : a = n
    · simp [idxOf, ha]
    · have : n ∈ rest := by
        rcases List.mem_cons.mp h with rfl | hm
        · exact absurd rfl ha
        · exact hm
      simp only [idxOf, if_neg ha, List.length_cons]
      exact Nat.succ_lt_succ (ih this)

theorem getElem_idxOf {n : Option String} : ∀ {l : List (Option String)} (h : n ∈ l)
    (hlt : idxOf n l < l.length), l[idxOf n l] = n := by
  intro l
  induction l with
  | nil => intro h hlt; simp at h
  | cons a rest ih =>
    intro h hlt
    by_cases ha : a = n
    · simp [idxOf, ha]
    · have hm : n ∈ rest := by
        rcases List.mem_cons.mp h with rfl | hm
        · exact absurd rfl ha
        · exact hm
      have hlt2 : idxOf n rest < rest.length := idxOf_lt_length hm
      simp only [idxOf, if_neg ha, List.getElem_cons_succ]
      exact ih hm hlt2

theorem contains_eq_false_of_not_mem {α : Type} [BEq α] [LawfulBEq α]
    {a : α} {l : List α} (h : a ∉ l) : l.contains a = false := by
  cases hc : l.contains a
  · rfl
  · exact absurd (List.mem_of_elem_eq_true hc) h

/-- The replacement the rule applies to each pre-existing entry: the first
incoming entry of the same name, if any. -/
def depReplace (newL : List JVal) (e : JVal) : JVal :=
  (newL.find? (fun p => depName p == depName e)).getD e

/-- The incoming entries whose name is absent from `names`. -/
def depNovel (newL : List JVal) (names : List (Option String)) : List JVal :=
  newL.filter (fun p => !names.contains (depName p))

/-- Closed form of the dependents/dependencies loop: when both sides carry
duplicate-free name lists, every pre-existing entry is replaced in place by
the incoming entry of its name (if any), and the incoming entries with new
names are appended in order. -/
theorem mergeDepsGo_formula :
    ∀ (newL oldL : List JVal),
      (newL.map depName).Nodup → (oldL.map depName).Nodup →
      mergeDepsGo (oldL.map depName) oldL newL
        = oldL.map (depReplace newL) ++ depNovel newL (oldL.map depName) := by
  intro newL
  induction newL with
  | nil =>
    intro oldL _ _
    have h1 : List.map (depReplace []) oldL = List.map id oldL :=
      List.map_eq_map_iff.mpr (fun e _ => rfl)
    simp [mergeDepsGo, depNovel, h1]
  | cons p rest ih =>
    intro oldL hnew hold
    have hmapcons : (p :: rest).map depName = depName p :: rest.map depName := by simp
    have hnrest : (rest.map depName).Nodup := by
      rw [hmapcons] at hnew; exact hnew.of_cons
    have hpn : depName p ∉ rest.map depName := by
      rw [hmapcons] at hnew; exact (List.nodup_cons.mp hnew).1
    have hfindp : rest.find? (fun q => depName q == depName p) = none := by
      rw [List.find?_eq_none]
      intro x hx
      have : depName x ≠ depName p := by
        intro hh
        exact hpn (hh ▸ List.mem_map_of_mem depName hx)
      simpa using this
    by_cases hn : depName p ∈ oldL.map depName
    · -- the incoming name is already present: replace in place
      have hi : idxOf (depName p) (oldL.map depName) < (oldL.map depName).length :=
        idxOf_lt_length hn
      have hio : idxOf (depName p) (oldL.map depName) < oldL.length := by
        simpa using hi
      set i := idxOf (depName p) (oldL.map depName) with hidef
      have hgeti : (oldL.map depName)[i] = depName p := getElem_idxOf hn hi
      have hnamei : depName (oldL[i]) = depName p := by
        rw [← hgeti]; simp
      have hmap' : (oldL.set i p).map depName = oldL.map depName := by
        rw [List.map_set, ← hnamei]
        have : depName (oldL[i]) = (oldL.map depName)[i] := by simp
        rw [this, set_getElem_self]
      have hstep : mergeDepsGo (oldL.map depName) oldL (p :: rest)
          = mergeDepsGo (oldL.map depName) (oldL.set i p) rest := by
        rw [hidef]
        simp [mergeDepsGo, hn]
      rw [hstep]
      have hrec := ih (oldL.set i p) hnrest (by rw [hmap']; exact hold)
      rw [hmap'] at hrec
      rw [hrec]
      have hmapeq : (oldL.set i p).map (depReplace rest) = oldL.map (depReplace (p :: rest)) := by
        apply List.ext_getElem
        · simp
        · intro j hj₁ hj₂
          have hjo : j < oldL.length := by simpa using hj₂
          have hjo' : j < (oldL.set i p).length := by simpa using hjo
          simp only [List.getElem_map]
          by_cases hji : j = i
          · have hset : (oldL.set i p)[j] = p := by
              simp only [hji]
              exact List.getElem_set_self (by simpa using hio)
            rw [hset]
            have h₁ : depReplace rest p = p := by
              rw [depReplace, hfindp]; rfl
            have hnamej : depName (oldL[j]) = depName p := by
              simp only [hji]
              exact hnamei
            have h₂ : depReplace (p :: rest) (oldL[j]) = p := by
              rw [depReplace, List.find?_cons]
              have hb : (depName p == depName (oldL[j])) = true := by
                rw [hnamej]; simp
              rw [hb]
              rfl
            rw [h₁, h₂]
          · have hset : (oldL.set i p)[j] = oldL[j] :=
              List.getElem_set_ne (fun hh => hji hh.symm) (by simpa using hjo)
            rw [hset]
            have hjm : j < (oldL.map depName).length := by simpa using hjo
            have hnamej : depName (oldL[j]) ≠ depName p := by
              intro hh
              have hji2 : (oldL.map depName)[j] = (oldL.map depName)[i] := by
                simp only [List.getElem_map]
                rw [hh, hnamei]
              exact hji ((hold.getElem_inj_iff).mp hji2)
            rw [depReplace, depReplace, List.find?_cons]
            have hb : (depName p == depName (oldL[j])) = false := by
              have : depName p ≠ depName (oldL[j]) := fun hh => hnamej hh.symm
              simpa using this
            rw [hb]
      have hfiltereq : depNovel (p :: rest) (oldL.map depName) = depNovel rest (oldL.map depName) := by
        rw [depNovel, depNovel, List.filter_cons]
        have hcont : ((oldL.map depName).contains (depName p)) = true :=
          List.elem_eq_true_of_mem hn
        rw [hcont]
        simp
      rw [hmapeq, hfiltereq]
    · -- the incoming name is new: append
      have hstep : mergeDepsGo (oldL.map depName) oldL (p :: rest)
          = mergeDepsGo (oldL.map depName ++ [depName p]) (oldL ++ [p]) rest := by
        simp [mergeDepsGo, hn]
      have hmap'' : (oldL ++ [p]).map depName = oldL.map depName ++ [depName p] := by simp
      have hnodup'' : ((oldL ++ [p]).map depName).Nodup := by
        rw [hmap'', List.nodup_append]
        refine ⟨hold, List.nodup_singleton _, ?_⟩
        intro a ha hb
        rw [List.mem_singleton] at hb
        exact hn (hb ▸ ha)
      have hrec := ih (oldL ++ [p]) hnrest hnodup''
      rw [hmap''] at hrec
      rw [hstep, hrec]
      have hmapsplit : (oldL ++ [p]).map (depReplace rest)
          = oldL.map (depReplace rest) ++ [p] := by
        rw [List.map_append]
        have : depReplace rest p = p := by rw [depReplace, hfindp]; rfl
        simp [this]
      have hmapeq : oldL.map (depReplace rest) = oldL.map (depReplace (p :: rest)) := by
        apply List.map_eq_map_iff.mpr
        intro e he
        have hne : depName p ≠ depName e := by
          intro hh
          exact hn (hh ▸ List.mem_map_of_mem depName he)
        rw [depReplace, depReplace, List.find?_cons]
        have : (depName p == depName e) = false := by simpa using hne
        rw [this]
      have hfiltereq : depNovel rest (oldL.map depName ++ [depName p])
          = depNovel rest (oldL.map depName) := by
        rw [depNovel, depNovel]
        apply List.filter_congr
        intro x hx
        have hxn : depName x ≠ depName p := by
          intro hh
          exact hpn (hh ▸ List.mem_map_of_mem depName hx)
        by_cases hc : depName x ∈ oldL.map depName
        · have h₁ : ((oldL.map depName ++ [depName p]).contains (depName x)) = true :=
            List.elem_eq_true_of_mem (List.mem_append_left _ hc)
          have h₂ : ((oldL.map depName).contains (depName x)) = true :=
            List.elem_eq_true_of_mem hc
          rw [h₁, h₂]
        · have h₁ : depName x ∉ oldL.map depName ++ [depName p] := by
            rw [List.mem_append]
            rintro (hh | hh)
            · exact hc hh
            · rw [List.mem_singleton] at hh; exact hxn hh
          have h₂ : ((oldL.map depName ++ [depName p]).contains (depName x)) = false :=
            contains_eq_false_of_not_mem h₁
          have h₃ : ((oldL.map depName).contains (depName x)) = false :=
            contains_eq_false_of_not_mem hc
          rw [h₂, h₃]
      have hfiltercons : depNovel (p :: rest) (oldL.map depName)
          = p :: depNovel rest (oldL.map depName) := by
        rw [depNovel, depNovel, List.filter_cons]
        have hcont : ((oldL.map depName).contains (depName p)) = false :=
          contains_eq_false_of_not_mem hn
        rw [hcont]
        simp
      rw [hmapsplit, hmapeq, hfiltereq, hfiltercons]
      simp

/-- `mergeDeps` includes the `if not existing_prop_list` short-circuit; the
closed form is the same with an empty existing list. -/
theorem mergeDeps_formula (newL oldL : List JVal)
    (hnew : (newL.map depName).Nodup) (hold : (oldL.map depName).Nodup) :
    mergeDeps newL oldL
      = oldL.map (depReplace newL) ++ depNovel newL (oldL.map depName) := by
  rw [mergeDeps]
  cases oldL with
  | nil =>
    show newL = List.map (depReplace newL) [] ++ depNovel newL (List.map depName [])
    simp only [List.map_nil, List.nil_append]
    rw [depNovel]
    exact (List.filter_eq_self.mpr (fun a _ => rfl)).symm
  | cons a rest =>
    rw [if_neg (by simp)]
    exact mergeDepsGo_formula newL (a :: rest) hnew hold

/-- In a list with duplicate-free names, searching for a member's name
finds exactly that member. -/
theorem find?_name_of_mem : ∀ (L : List JVal), (L.map depName).Nodup →
    ∀ (e : JVal), e ∈ L → L.find? (fun p => depName p == depName e) = some e := by
  intro L
  induction L with
  | nil => intro _ e he; simp at he
  | cons a rest ih =>
    intro hnd e he
    rw [List.map_cons] at hnd
    have hcons := List.nodup_cons.mp hnd
    have hna : depName a ∉ rest.map depName := hcons.1
    have hndrest : (rest.map depName).Nodup := hcons.2
    rw [List.find?_cons]
    rcases List.mem_cons.mp he with rfl | hm
    · have : (depName e == depName e) = true := by simp
      rw [this]
    · have : (depName a == depName e) = false := by
        have : depName a ≠ depName e := by
          intro hh
          exact hna (hh ▸ List.mem_map_of_mem depName hm)
        simpa using this
      rw [this]
      exact ih hndrest e hm

/-- Replacement preserves the entry's name. -/
theorem depName_depReplace (newL : List JVal) (e : JVal) :
    depName (depReplace newL e) = depName e := by
  rw [depReplace]
  cases hf : newL.find? (fun p => depName p == depName e) with
  | none => rfl
  | some q =>
    have hq := List.find?_some hf
    have : depName q = depName e := by simpa using hq
    simpa using this

/-- The names of the merged list: the existing names followed by the novel
incoming ones. -/
theorem mergeDeps_names (newL oldL : List JVal)
    (hnew : (newL.map depName).Nodup) (hold : (oldL.map depName).Nodup) :
    (mergeDeps newL oldL).map depName
      = oldL.map depName ++ (depNovel newL (oldL.map depName)).map depName := by
  rw [mergeDeps_formula newL oldL hnew hold, List.map_append]
  congr 1
  rw [List.map_map]
  apply List.map_eq_map_iff.mpr
  intro e _
  exact depName_depReplace newL e

/-- Duplicate-freeness of names is preserved by the merge. -/
theorem mergeDeps_nodup (newL oldL : List JVal)
    (hnew : (newL.map depName).Nodup) (hold : (oldL.map depName).Nodup) :
    ((mergeDeps newL oldL).map depName).Nodup := by
  rw [mergeDeps_names newL oldL hnew hold, List.nodup_append]
  refine ⟨hold, ?_, ?_⟩
  · have hsub : List.Sublist ((depNovel newL (oldL.map depName)).map depName)
        (newL.map depName) :=
      List.Sublist.map depName (List.filter_sublist newL)
    exact hnew.sublist hsub
  · intro a ha hb
    rcases List.mem_map.mp hb with ⟨x, hx, hxa⟩
    have hxf := List.mem_filter.mp hx
    have hcont : (!(oldL.map depName).contains (depName x)) = true := hxf.2
    have : depName x ∉ oldL.map depName := by
      intro hmem
      have hc2 : (oldL.map depName).contains (depName x) = true :=
        List.elem_eq_true_of_mem hmem
      rw [hc2] at hcont
      simp at hcont
    exact this (hxa ▸ ha)

/-- One replacement pass is as good as two. -/
theorem depReplace_idem (newL : List JVal) (e : JVal) :
    depReplace newL (depReplace newL e) = depReplace newL e := by
  cases hf : newL.find? (fun p => depName p == depName e) with
  | none =>
    have he : depReplace newL e = e := by rw [depReplace, hf]; rfl
    rw [he, he]
  | some q =>
    have he : depReplace newL e = q := by rw [depReplace, hf]; rfl
    rw [he]
    rw [depReplace]
    have hq : depName q = depName e := by simpa using List.find?_some hf
    rw [hq, hf]
    rfl

/-- Applying the same incoming dependents list a second time is the
identity. -/
theorem mergeDeps_idem (newL oldL : List JVal)
    (hnew : (newL.map depName).Nodup) (hold : (oldL.map depName).Nodup) :
    mergeDeps newL (mergeDeps newL oldL) = mergeDeps newL oldL := by
  have hRn : ((mergeDeps newL oldL).map depName).Nodup :=
    mergeDeps_nodup newL oldL hnew hold
  rw [mergeDeps_formula newL _ hnew hRn]
  have hnames : ∀ p ∈ newL, depName p ∈ (mergeDeps newL oldL).map depName := by
    intro p hp
    rw [mergeDeps_names newL oldL hnew hold, List.mem_append]
    by_cases hold' : depName p ∈ oldL.map depName
    · exact Or.inl hold'
    · refine Or.inr (List.mem_map_of_mem depName ?_)
      rw [depNovel, List.mem_filter]
      exact ⟨hp, by rw [contains_eq_false_of_not_mem hold']; rfl⟩
  have hnovel : depNovel newL ((mergeDeps newL oldL).map depName) = [] := by
    rw [depNovel]
    apply List.filter_eq_nil_iff.mpr
    intro p hp
    have hc : ((mergeDeps newL oldL).map depName).contains (depName p) = true :=
      List.elem_eq_true_of_mem (hnames p hp)
    rw [hc]
    simp
  have hmapid : (mergeDeps newL oldL).map (depReplace newL) = mergeDeps newL oldL := by
    have hmem : ∀ e ∈ mergeDeps newL oldL, depReplace newL e = e := by
      intro e he
      rw [mergeDeps_formula newL oldL hnew hold, List.mem_append] at he
      rcases he with he | he
      · rcases List.mem_map.mp he with ⟨e₀, _, hrepl⟩
        rw [← hrepl]
        exact depReplace_idem newL e₀
      · have hmemN : e ∈ newL := List.mem_of_mem_filter he
        rw [depReplace, find?_name_of_mem newL hnew e hmemN]
        rfl
    have : (mergeDeps newL oldL).map (depReplace newL)
        = (mergeDeps newL oldL).map id :=
      List.map_eq_map_iff.mpr (fun e he => by rw [hmem e he]; rfl)
    rw [this, List.map_id]
  rw [hnovel, hmapid, List.append_nil]

/-! ## The implementations merge rule -/

/-- When every incoming composite key is already known, the loop appends
nothing. -/
theorem mergeImplsGo_id : ∀ (newL : List JVal) (names : List String) (acc : List JVal),
    (∀ p ∈ newL, create_implementation_key p ∈ names) →
    mergeImplsGo names acc newL = acc := by
  intro newL
  induction newL with
  | nil => intro names acc _; rfl
  | cons q rest ih =>
    intro names acc h
    rw [mergeImplsGo]
    simp only [if_pos (h q (List.mem_cons_self _ _))]
    exact ih names acc (fun p hp => h p (List.mem_cons_of_mem _ hp))

/-- Keys already recorded stay recorded. -/
theorem mergeImplsGo_keys_mono : ∀ (newL : List JVal) (names : List String) (acc : List JVal),
    names = acc.map create_implementation_key →
    ∀ n ∈ names, n ∈ (mergeImplsGo names acc newL).map create_implementation_key := by
  intro newL
  induction newL with
  | nil =>
    intro names acc hinv n hn
    rw [mergeImplsGo]
    exact hinv ▸ hn
  | cons q rest ih =>
    intro names acc hinv n hn
    rw [mergeImplsGo]
    by_cases hq : create_implementation_key q ∈ names
    · simp only [if_pos hq]
      exact ih names acc hinv n hn
    · simp only [if_neg hq]
      refine ih (names ++ [create_implementation_key q]) (acc ++ [q]) ?_ n
        (List.mem_append_left _ hn)
      rw [List.map_append, hinv]
      rfl

/-- Every incoming key ends up among the keys of the merged list. -/
theorem mergeImplsGo_keys_sup : ∀ (newL : List JVal) (names : List String) (acc : List JVal),
    names = acc.map create_implementation_key →
    ∀ p ∈ newL,
      create_implementation_key p ∈ (mergeImplsGo names acc newL).map create_implementation_key := by
  intro newL
  induction newL with
  | nil => intro names acc _ p hp; simp at hp
  | cons q rest ih =>
    intro names acc hinv p hp
    rw [mergeImplsGo]
    by_cases hq : create_implementation_key q ∈ names
    · simp only [if_pos hq]
      rcases List.mem_cons.mp hp with rfl | hp'
      · exact mergeImplsGo_keys_mono rest names acc hinv _ hq
      · exact ih names acc hinv p hp'
    · simp only [if_neg hq]
      have hinv' : names ++ [create_implementation_key q]
          = (acc ++ [q]).map create_implementation_key := by
        rw [List.map_append, hinv]
        rfl
      rcases List.mem_cons.mp hp with rfl | hp'
      · exact mergeImplsGo_keys_mono rest _ _ hinv' _
          (List.mem_append_right _ (List.mem_singleton.mpr rfl))
      · exact ih _ _ hinv' p hp'

/-- Merging the same incoming implementation list a second time is the
identity. -/
theorem mergeImpls_idem (newL exL : List JVal) :
    mergeImpls newL (mergeImpls newL exL) = mergeImpls newL exL := by
  rw [mergeImpls]
  exact mergeImplsGo_id newL _ _
    (fun p hp => mergeImplsGo_keys_sup newL (exL.map create_implementation_key) exL rfl p hp)

/-- The two-entry scenario: a reference with a known key is skipped, one
with a new key is appended. -/
theorem mergeImpls_pair (a b : JVal) (exL : List JVal)
    (ha : create_implementation_key a ∈ exL.map create_implementation_key)
    (hb : create_implementation_key b ∉ exL.map create_implementation_key) :
    mergeImpls [a, b] exL = exL ++ [b] := by
  rw [mergeImpls, mergeImplsGo]
  simp only [if_pos ha]
  rw [mergeImplsGo]
  simp only [if_neg hb]
  rfl

/-! ## Key membership -/

theorem jlookup_eq_none_of_not_mem (m : JObj) (k : String)
    (h : k ∉ m.map Prod.fst) : jlookup m k = none := by
  induction m with
  | nil => rfl
  | cons p rest ih =>
    obtain ⟨k₀, v₀⟩ := p
    have hk₀ : ¬ k₀ = k := by
      intro hh
      exact h (by simp [hh])
    rw [jlookup, assocGet_cons, if_neg hk₀]
    exact ih (fun hm => h (List.mem_cons_of_mem _ hm))

theorem mem_of_jlookup_eq_some (m : JObj) (k : String) (v : JVal)
    (h : jlookup m k = some v) : k ∈ m.map Prod.fst := by
  by_cases hm : k ∈ m.map Prod.fst
  · exact hm
  · rw [jlookup_eq_none_of_not_mem m k hm] at h
    exact absurd h (by simp)

theorem jlookup_isSome_of_mem : ∀ (m : JObj) (k : String),
    k ∈ m.map Prod.fst → ∃ v, jlookup m k = some v := by
  intro m
  induction m with
  | nil => intro k h; simp at h
  | cons p rest ih =>
    intro k h
    obtain ⟨k₀, v₀⟩ := p
    by_cases hk₀ : k₀ = k
    · exact ⟨v₀, by rw [jlookup, assocGet_cons, if_pos hk₀]⟩
    · rw [List.map_cons] at h
      have hm : k ∈ rest.map Prod.fst := by
        rcases List.mem_cons.mp h with hh | hh
        · exact absurd hh.symm hk₀
        · exact hh
      rcases ih k hm with ⟨v, hv⟩
      exact ⟨v, by rw [jlookup, assocGet_cons, if_neg hk₀]; exact hv⟩

theorem getNonNull_eq_some (m : JObj) (k : String) (v : JVal)
    (h : getNonNull m k = some v) : jlookup m k = some v := by
  rw [getNonNull] at h
  cases hj : jlookup m k with
  | none => rw [hj] at h; exact absurd h (by simp)
  | some w =>
    rw [hj] at h
    cases w with
    | null => exact absurd h (by simp)
    | bool b => simpa using h
    | num n => simpa using h
    | str s => simpa using h
    | arr xs => simpa using h
    | obj fs => simpa using h

theorem getList_of_jlookup_arr (m : JObj) (k : String) (xs : List JVal)
    (h : jlookup m k = some (JVal.arr xs)) : getList m k = xs := by
  rw [getList, h]

theorem isListAt_arr (m : JObj) (k : String) (v : JVal)
    (hv : jlookup m k = some v) (h : isListAt m k = true) : ∃ xs, v = JVal.arr xs := by
  rw [isListAt, hv] at h
  cases v with
  | arr xs => exact ⟨xs, rfl⟩
  | null => exact absurd h Bool.false_ne_true
  | bool b => exact absurd h Bool.false_ne_true
  | num n => exact absurd h Bool.false_ne_true
  | str s => exact absurd h Bool.false_ne_true
  | obj fs => exact absurd h Bool.false_ne_true

/-- An empty existing list makes the loop adopt the incoming list. -/
theorem mergeDeps_nil_right (newL : List JVal) : mergeDeps newL [] = newL := by
  rw [mergeDeps]
  rfl

/-- Merging a list with itself under duplicate-free names is the
identity. -/
theorem mergeDeps_self (xs : List JVal) (h : (xs.map depName).Nodup) :
    mergeDeps xs xs = xs := by
  have h2 := mergeDeps_idem xs [] h (by simp)
  rw [mergeDeps_nil_right] at h2
  exact h2

/-- Merging an implementation list with itself is the identity. -/
theorem mergeImpls_self (xs : List JVal) : mergeImpls xs xs = xs := by
  rw [mergeImpls]
  exact mergeImplsGo_id xs _ xs
    (fun p hp => List.mem_map_of_mem create_implementation_key hp)


/-! ## Equation lemmas for the nested matches -/

theorem mergeImplField_none (new ex : JObj)
    (h : jlookup ex "implementations" = none) : mergeImplField new ex = none := by
  rw [mergeImplField, h]

theorem mergeImplField_nonobj (new ex : JObj) (v : JVal)
    (h : jlookup ex "implementations" = some v)
    (hv : ∀ fs, v ≠ JVal.obj fs) : mergeImplField new ex = some v := by
  rw [mergeImplField, h]
  cases v with
  | obj fs => exact absurd rfl (hv fs)
  | null => rfl
  | bool b => rfl
  | num n => rfl
  | str s => rfl
  | arr xs => rfl

theorem mergeImplField_obj_arr (new ex : JObj) (fs : JObj) (exI : List JVal)
    (h1 : jlookup ex "implementations" = some (JVal.obj fs))
    (h2 : jlookup fs "implementation" = some (JVal.arr exI)) :
    mergeImplField new ex = some (JVal.obj (setFirst fs "implementation"
      (JVal.arr (mergeImpls (getImpls new) exI)))) := by
  rw [mergeImplField, h1]
  show (match jlookup fs "implementation" with
    | some (JVal.arr exImpls) =>
      some (JVal.obj (setFirst fs "implementation"
        (JVal.arr (mergeImpls (getImpls new) exImpls))))
    | _ => some (JVal.obj fs)) = _
  rw [h2]

theorem mergeImplField_obj_noarr (new ex : JObj) (fs : JObj)
    (h1 : jlookup ex "implementations" = some (JVal.obj fs))
    (h2 : ∀ xs, jlookup fs "implementation" ≠ some (JVal.arr xs)) :
    mergeImplField new ex = some (JVal.obj fs) := by
  rw [mergeImplField, h1]
  show (match jlookup fs "implementation" with
    | some (JVal.arr exImpls) =>
      some (JVal.obj (setFirst fs "implementation"
        (JVal.arr (mergeImpls (getImpls new) exImpls))))
    | _ => some (JVal.obj fs)) = _
  cases hw : jlookup fs "implementation" with
  | none => rfl
  | some w =>
    cases w with
    | arr xs => exact absurd hw (h2 xs)
    | null => rfl
    | bool b => rfl
    | num n => rfl
    | str s => rfl
    | obj fs' => rfl

theorem getImpls_obj_arr (m : JObj) (fs : JObj) (exI : List JVal)
    (h1 : jlookup m "implementations" = some (JVal.obj fs))
    (h2 : jlookup fs "implementation" = some (JVal.arr exI)) :
    getImpls m = exI := by
  rw [getImpls, h1]
  show (match jlookup fs "implementation" with
    | some (JVal.arr xs) => xs
    | _ => ([] : List JVal)) = exI
  rw [h2]

theorem getImpls_none (m : JObj)
    (h : jlookup m "implementations" = none) : getImpls m = [] := by
  rw [getImpls, h]

/-- Merging a record into itself changes nothing, field by field. -/
theorem update_self (m : JObj)
    (hsh1 : isListAt m "dependents" = true) (hsh2 : isListAt m "dependencies" = true)
    (hm1 : ((getList m "dependents").map depName).Nodup)
    (hm2 : ((getList m "dependencies").map depName).Nodup) :
    ∀ k, jlookup (update_module_properties m m) k = jlookup m k := by
  intro k
  rw [jlookup_update]
  by_cases hmem : k ∈ (m ++ m).map Prod.fst
  · rw [if_pos hmem]
    have hkm : k ∈ m.map Prod.fst := by
      rw [List.map_append] at hmem
      rcases List.mem_append.mp hmem with h | h <;> exact h
    rw [mergeField]
    by_cases himp : k = "implementations"
    · rw [if_pos himp]
      subst himp
      cases hv : jlookup m "implementations" with
      | none => rw [mergeImplField_none m m hv]
      | some v =>
        cases v with
        | obj fs =>
          cases hfs : jlookup fs "implementation" with
          | some w =>
            cases w with
            | arr ex =>
              rw [mergeImplField_obj_arr m m fs ex hv hfs,
                getImpls_obj_arr m fs ex hv hfs, mergeImpls_self,
                setFirst_self fs "implementation" _ hfs]
            | null =>
              rw [mergeImplField_obj_noarr m m fs hv
                (fun xs hcon => by rw [hfs] at hcon; exact absurd hcon (by simp))]
            | bool b =>
              rw [mergeImplField_obj_noarr m m fs hv
                (fun xs hcon => by rw [hfs] at hcon; exact absurd hcon (by simp))]
            | num n =>
              rw [mergeImplField_obj_noarr m m fs hv
                (fun xs hcon => by rw [hfs] at hcon; exact absurd hcon (by simp))]
            | str s =>
              rw [mergeImplField_obj_noarr m m fs hv
                (fun xs hcon => by rw [hfs] at hcon; exact absurd hcon (by simp))]
            | obj fs' =>
              rw [mergeImplField_obj_noarr m m fs hv
                (fun xs hcon => by rw [hfs] at hcon; exact absurd hcon (by simp))]
          | none =>
            rw [mergeImplField_obj_noarr m m fs hv
              (fun xs hcon => by rw [hfs] at hcon; exact absurd hcon (by simp))]
        | null => rw [mergeImplField_nonobj m m _ hv (by intro fs h; exact absurd h (by simp))]
        | bool b => rw [mergeImplField_nonobj m m _ hv (by intro fs h; exact absurd h (by simp))]
        | num n => rw [mergeImplField_nonobj m m _ hv (by intro fs h; exact absurd h (by simp))]
        | str s => rw [mergeImplField_nonobj m m _ hv (by intro fs h; exact absurd h (by simp))]
        | arr xs => rw [mergeImplField_nonobj m m _ hv (by intro fs h; exact absurd h (by simp))]
    · rw [if_neg himp]
      by_cases hdep : k = "dependents" ∨ k = "dependencies"
      · rw [if_pos hdep]
        have hsh : isListAt m k = true := by
          rcases hdep with rfl | rfl
          exacts [hsh1, hsh2]
        have hnod : ((getList m k).map depName).Nodup := by
          rcases hdep with rfl | rfl
          exacts [hm1, hm2]
        rcases jlookup_isSome_of_mem m k hkm with ⟨v, hv⟩
        rcases isListAt_arr m k v hv hsh with ⟨xs, rfl⟩
        have hgl : getList m k = xs := getList_of_jlookup_arr m k xs hv
        rw [hv, hgl, mergeDeps_self xs (hgl ▸ hnod)]
      · rw [if_neg hdep]
        cases hg : getNonNull m k with
        | some v => exact (getNonNull_eq_some m k v hg).symm
        | none => rfl
  · rw [if_neg hmem]
    have hno : k ∉ m.map Prod.fst := by
      intro h
      exact hmem (by rw [List.map_append]; exact List.mem_append_left _ h)
    exact (jlookup_eq_none_of_not_mem m k hno).symm

theorem mergeField_impl (new ex : JObj) :
    mergeField new ex "implementations" = mergeImplField new ex := by
  rw [mergeField, if_pos rfl]

theorem mergeField_dep (new ex : JObj) (k : String)
    (h1 : ¬ k = "implementations") (h2 : k = "dependents" ∨ k = "dependencies") :
    mergeField new ex k
      = some (JVal.arr (mergeDeps (getList new k) (getList ex k))) := by
  rw [mergeField, if_neg h1, if_pos h2]

theorem mergeField_other (new ex : JObj) (k : String)
    (h1 : ¬ k = "implementations") (h2 : ¬ (k = "dependents" ∨ k = "dependencies")) :
    mergeField new ex k
      = (match getNonNull new k with
         | some v => some v
         | none => jlookup ex k) := by
  rw [mergeField, if_neg h1, if_neg h2]

/-- Merging the same incoming record a second time on top of the first
merge's result changes nothing, field by field. -/
theorem update_stable (m s : JObj)
    (hm1 : ((getList m "dependents").map depName).Nodup)
    (hm2 : ((getList m "dependencies").map depName).Nodup)
    (hs1 : ((getList s "dependents").map depName).Nodup)
    (hs2 : ((getList s "dependencies").map depName).Nodup) :
    ∀ k, jlookup (update_module_properties m (update_module_properties m s)) k
      = jlookup (update_module_properties m s) k := by
  intro k
  set t := update_module_properties m s with htdef
  rw [jlookup_update m t k]
  by_cases hmem : k ∈ (m ++ t).map Prod.fst
  · rw [if_pos hmem]
    rw [List.map_append] at hmem
    have hk : k ∈ m.map Prod.fst ∨ k ∈ t.map Prod.fst := List.mem_append.mp hmem
    by_cases himp : k = "implementations"
    · subst himp
      rw [mergeField_impl]
      have ht : jlookup t "implementations"
          = if "implementations" ∈ (m ++ s).map Prod.fst
            then mergeImplField m s else none := by
        rw [htdef, jlookup_update, mergeField_impl]
      by_cases hc : "implementations" ∈ (m ++ s).map Prod.fst
      · rw [if_pos hc] at ht
        cases hv : jlookup s "implementations" with
        | none =>
          rw [mergeImplField_none m s hv] at ht
          rw [mergeImplField_none m t ht, ht]
        | some v =>
          cases v with
          | obj fs =>
            cases hfs : jlookup fs "implementation" with
            | some w =>
              cases w with
              | arr ex =>
                rw [mergeImplField_obj_arr m s fs ex hv hfs] at ht
                have hfs' : jlookup (setFirst fs "implementation"
                    (JVal.arr (mergeImpls (getImpls m) ex))) "implementation"
                    = some (JVal.arr (mergeImpls (getImpls m) ex)) :=
                  jlookup_setFirst_self fs "implementation" _ _ hfs
                rw [mergeImplField_obj_arr m t _ _ ht hfs']
                rw [mergeImpls_idem, setFirst_self _ "implementation" _ hfs', ht]
              | null =>
                have hno : ∀ xs, jlookup fs "implementation" ≠ some (JVal.arr xs) :=
                  fun xs hcon => by rw [hfs] at hcon; exact absurd hcon (by simp)
                rw [mergeImplField_obj_noarr m s fs hv hno] at ht
                rw [mergeImplField_obj_noarr m t fs ht hno, ht]
              | bool b =>
                have hno : ∀ xs, jlookup fs "implementation" ≠ some (JVal.arr xs) :=
                  fun xs hcon => by rw [hfs] at hcon; exact absurd hcon (by simp)
                rw [mergeImplField_obj_noarr m s fs hv hno] at ht
                rw [mergeImplField_obj_noarr m t fs ht hno, ht]
              | num n =>
                have hno : ∀ xs, jlookup fs "implementation" ≠ some (JVal.arr xs) :=
                  fun xs hcon => by rw [hfs] at hcon; exact absurd hcon (by simp)
                rw [mergeImplField_obj_noarr m s fs hv hno] at ht
                rw [mergeImplField_obj_noarr m t fs ht hno, ht]
              | str ss =>
                have hno : ∀ xs, jlookup fs "implementation" ≠ some (JVal.arr xs) :=
                  fun xs hcon => by rw [hfs] at hcon; exact absurd hcon (by simp)
                rw [mergeImplField_obj_noarr m s fs hv hno] at ht
                rw [mergeImplField_obj_noarr m t fs ht hno, ht]
              | obj fs2 =>
                have hno : ∀ xs, jlookup fs "implementation" ≠ some (JVal.arr xs) :=
                  fun xs hcon => by rw [hfs] at hcon; exact absurd hcon (by simp)
                rw [mergeImplField_obj_noarr m s fs hv hno] at ht
                rw [mergeImplField_obj_noarr m t fs ht hno, ht]
            | none =>
              have hno : ∀ xs, jlookup fs "implementation" ≠ some (JVal.arr xs) :=
                fun xs hcon => by rw [hfs] at hcon; exact absurd hcon (by simp)
              rw [mergeImplField_obj_noarr m s fs hv hno] at ht
              rw [mergeImplField_obj_noarr m t fs ht hno, ht]
          | null =>
            have hno : ∀ gs, JVal.null ≠ JVal.obj gs := by intro gs h; exact absurd h (by simp)
            rw [mergeImplField_nonobj m s _ hv hno] at ht
            rw [mergeImplField_nonobj m t _ ht hno, ht]
          | bool b =>
            have hno : ∀ gs, JVal.bool b ≠ JVal.obj gs := by intro gs h; exact absurd h (by simp)
            rw [mergeImplField_nonobj m s _ hv hno] at ht
            rw [mergeImplField_nonobj m t _ ht hno, ht]
          | num n =>
            have hno : ∀ gs, JVal.num n ≠ JVal.obj gs := by intro gs h; exact absurd h (by simp)
            rw [mergeImplField_nonobj m s _ hv hno] at ht
            rw [mergeImplField_nonobj m t _ ht hno, ht]
          | str ss =>
            have hno : ∀ gs, JVal.str ss ≠ JVal.obj gs := by intro gs h; exact absurd h (by simp)
            rw [mergeImplField_nonobj m s _ hv hno] at ht
            rw [mergeImplField_nonobj m t _ ht hno, ht]
          | arr xs =>
            have hno : ∀ gs, JVal.arr xs ≠ JVal.obj gs := by intro gs h; exact absurd h (by simp)
            rw [mergeImplField_nonobj m s _ hv hno] at ht
            rw [mergeImplField_nonobj m t _ ht hno, ht]
      · rw [if_neg hc] at ht
        rcases hk with hkm | hkt
        · exact absurd (by
            rw [List.map_append]
            exact List.mem_append_left _ hkm) hc
        · rcases jlookup_isSome_of_mem t _ hkt with ⟨v, hv⟩
          rw [ht] at hv
          exact absurd hv (by simp)
    · by_cases hdep : k = "dependents" ∨ k = "dependencies"
      · rw [mergeField_dep m t k himp hdep]
        have ht : jlookup t k = if k ∈ (m ++ s).map Prod.fst
            then some (JVal.arr (mergeDeps (getList m k) (getList s k))) else none := by
          rw [htdef, jlookup_update, mergeField_dep m s k himp hdep]
        by_cases hc : k ∈ (m ++ s).map Prod.fst
        · rw [if_pos hc] at ht
          have hglt : getList t k = mergeDeps (getList m k) (getList s k) :=
            getList_of_jlookup_arr t k _ ht
          have hmn : ((getList m k).map depName).Nodup := by
            rcases hdep with rfl | rfl
            exacts [hm1, hm2]
          have hsn : ((getList s k).map depName).Nodup := by
            rcases hdep with rfl | rfl
            exacts [hs1, hs2]
          rw [hglt, mergeDeps_idem _ _ hmn hsn, ht]
        · rw [if_neg hc] at ht
          rcases hk with hkm | hkt
          · exact absurd (by
              rw [List.map_append]
              exact List.mem_append_left _ hkm) hc
          · rcases jlookup_isSome_of_mem t _ hkt with ⟨v, hv⟩
            rw [ht] at hv
            exact absurd hv (by simp)
      · rw [mergeField_other m t k himp hdep]
        cases hg : getNonNull m k with
        | some v =>
          have hjm : jlookup m k = some v := getNonNull_eq_some m k v hg
          have hkm2 : k ∈ m.map Prod.fst := mem_of_jlookup_eq_some m k v hjm
          have ht2 : jlookup t k = some v := by
            rw [htdef, jlookup_update, if_pos (by
              rw [List.map_append]
              exact List.mem_append_left _ hkm2)]
            rw [mergeField_other m s k himp hdep, hg]
          exact ht2.symm
        | none => rfl
  · rw [if_neg hmem]
    have hnt : k ∉ t.map Prod.fst := by
      intro h
      exact hmem (by rw [List.map_append]; exact List.mem_append_right _ h)
    exact (jlookup_eq_none_of_not_mem t k hnt).symm

/-- Stored values this engine writes are JSON objects; a key absent from
the store is read as `{}`.  Guard used as a hypothesis: the record under a
key, if present, is an object (anything else makes the Python merge
raise). -/
def isObjOrAbsent (st : MStore) (k : String) : Bool :=
  match storeGet st k with
  | some (JVal.obj _) => true
  | none => true
  | some _ => false

theorem populate_modules_single (st : MStore) (m : JObj) :
    populate_modules st [m] = storeSet st (create_module_key m)
      (JVal.obj (if isEmptyObj (storeGetD st (create_module_key m)) then m
                 else update_module_properties m
                   (objFields (storeGetD st (create_module_key m))))) := rfl

theorem storedModFields_set_self (st : MStore) (k : String) (fs : JObj) :
    storedModFields (storeSet st k (JVal.obj fs)) k = fs := by
  rw [storedModFields, storeGetD, storeGet, storeSet, assocGet_set_self]
  rfl

theorem storeGetD_set_self (st : MStore) (k : String) (v : JVal) :
    storeGetD (storeSet st k v) k = v := by
  rw [storeGetD, storeGet, storeSet, assocGet_set_self]
  rfl

/-- Every key of the existing record is present in the merged record. -/
theorem mergeField_isSome_right (new ex : JObj) (k : String)
    (hk : k ∈ ex.map Prod.fst) : ∃ v, mergeField new ex k = some v := by
  rcases jlookup_isSome_of_mem ex k hk with ⟨v, hv⟩
  by_cases himp : k = "implementations"
  · subst himp
    rw [mergeField_impl]
    cases v with
    | obj fs =>
      cases hfs : jlookup fs "implementation" with
      | some w =>
        cases w with
        | arr ex2 => exact ⟨_, mergeImplField_obj_arr new ex fs ex2 hv hfs⟩
        | null =>
          exact ⟨_, mergeImplField_obj_noarr new ex fs hv
            (fun xs hcon => by rw [hfs] at hcon; exact absurd hcon (by simp))⟩
        | bool b =>
          exact ⟨_, mergeImplField_obj_noarr new ex fs hv
            (fun xs hcon => by rw [hfs] at hcon; exact absurd hcon (by simp))⟩
        | num n =>
          exact ⟨_, mergeImplField_obj_noarr new ex fs hv
            (fun xs hcon => by rw [hfs] at hcon; exact absurd hcon (by simp))⟩
        | str s =>
          exact ⟨_, mergeImplField_obj_noarr new ex fs hv
            (fun xs hcon => by rw [hfs] at hcon; exact absurd hcon (by simp))⟩
        | obj fs2 =>
          exact ⟨_, mergeImplField_obj_noarr new ex fs hv
            (fun xs hcon => by rw [hfs] at hcon; exact absurd hcon (by simp))⟩
      | none =>
        exact ⟨_, mergeImplField_obj_noarr new ex fs hv
          (fun xs hcon => by rw [hfs] at hcon; exact absurd hcon (by simp))⟩
    | null =>
      exact ⟨_, mergeImplField_nonobj new ex _ hv (by intro gs h; exact absurd h (by simp))⟩
    | bool b =>
      exact ⟨_, mergeImplField_nonobj new ex _ hv (by intro gs h; exact absurd h (by simp))⟩
    | num n =>
      exact ⟨_, mergeImplField_nonobj new ex _ hv (by intro gs h; exact absurd h (by simp))⟩
    | str s =>
      exact ⟨_, mergeImplField_nonobj new ex _ hv (by intro gs h; exact absurd h (by simp))⟩
    | arr xs =>
      exact ⟨_, mergeImplField_nonobj new ex _ hv (by intro gs h; exact absurd h (by simp))⟩
  · by_cases hdep : k = "dependents" ∨ k = "dependencies"
    · exact ⟨_, mergeField_dep new ex k himp hdep⟩
    · rw [mergeField_other new ex k himp hdep]
      cases hg : getNonNull new k with
      | some w => exact ⟨w, rfl⟩
      | none => exact ⟨v, hv⟩

/-- C4: merging the same incoming module record into the store twice in a
row yields the same stored record under its canonical key as merging it
once (field by field).  Hypotheses are the data model's well-formedness
(§3): the incoming record's dependency-kind fields hold arrays whose
`name`s are pairwise distinct, and the stored value under the key, if any,
is a JSON object whose dependency-kind lists also have distinct names. -/
theorem c4_populate_modules_idempotent (st : MStore) (m : JObj)
    (hsh1 : isListAt m "dependents" = true) (hsh2 : isListAt m "dependencies" = true)
    (hm1 : ((getList m "dependents").map depName).Nodup)
    (hm2 : ((getList m "dependencies").map depName).Nodup)
    (hobj : isObjOrAbsent st (create_module_key m) = true)
    (hs1 : ((getList (storedModFields st (create_module_key m)) "dependents").map depName).Nodup)
    (hs2 : ((getList (storedModFields st (create_module_key m)) "dependencies").map depName).Nodup) :
    ∀ k, jlookup (storedModFields (populate_modules (populate_modules st [m]) [m])
          (create_module_key m)) k
      = jlookup (storedModFields (populate_modules st [m]) (create_module_key m)) k := by
  intro k
  cases hc1 : isEmptyObj (storeGetD st (create_module_key m)) with
  | true =>
    have e1 : populate_modules st [m]
        = storeSet st (create_module_key m) (JVal.obj m) := by
      rw [populate_modules_single, if_pos hc1]
    have hD1 : storeGetD (populate_modules st [m]) (create_module_key m) = JVal.obj m := by
      rw [e1, storeGetD_set_self]
    have hsf1 : storedModFields (populate_modules st [m]) (create_module_key m) = m := by
      rw [e1, storedModFields_set_self]
    cases hc2 : isEmptyObj (JVal.obj m) with
    | true =>
      have e2 : populate_modules (populate_modules st [m]) [m]
          = storeSet (populate_modules st [m]) (create_module_key m) (JVal.obj m) := by
        rw [populate_modules_single (populate_modules st [m]) m, hD1, if_pos hc2]
      rw [e2, storedModFields_set_self, hsf1]
    | false =>
      have e2 : populate_modules (populate_modules st [m]) [m]
          = storeSet (populate_modules st [m]) (create_module_key m)
            (JVal.obj (update_module_properties m m)) := by
        rw [populate_modules_single (populate_modules st [m]) m, hD1,
          if_neg (by rw [hc2]; exact Bool.false_ne_true)]
        rfl
      rw [e2, storedModFields_set_self, hsf1]
      exact update_self m hsh1 hsh2 hm1 hm2 k
  | false =>
    cases hst : storeGet st (create_module_key m) with
    | none =>
      exfalso
      have hD : storeGetD st (create_module_key m) = JVal.obj [] := by
        rw [storeGetD, hst]
        rfl
      rw [hD] at hc1
      exact absurd hc1 (by decide)
    | some v =>
      cases v with
      | obj fs =>
        have hD : storeGetD st (create_module_key m) = JVal.obj fs := by
          rw [storeGetD, hst]
          rfl
        have hsmf : storedModFields st (create_module_key m) = fs := by
          rw [storedModFields, hD]
          rfl
        have hfs_ne : fs ≠ [] := by
          intro h
          rw [h] at hD
          rw [hD] at hc1
          exact absurd hc1 (by decide)
        obtain ⟨q, fs', rfl⟩ : ∃ q fs', fs = q :: fs' := by
          cases fs with
          | nil => exact absurd rfl hfs_ne
          | cons q fs' => exact ⟨q, fs', rfl⟩
        have e1 : populate_modules st [m]
            = storeSet st (create_module_key m)
              (JVal.obj (update_module_properties m (q :: fs'))) := by
          rw [populate_modules_single,
            if_neg (by rw [hc1]; exact Bool.false_ne_true), hD]
          rfl
        have hsf1 : storedModFields (populate_modules st [m]) (create_module_key m)
            = update_module_properties m (q :: fs') := by
          rw [e1, storedModFields_set_self]
        have hD1 : storeGetD (populate_modules st [m]) (create_module_key m)
            = JVal.obj (update_module_properties m (q :: fs')) := by
          rw [e1, storeGetD_set_self]
        have hmem0 : q.1 ∈ (q :: fs').map Prod.fst := by simp
        rcases mergeField_isSome_right m (q :: fs') q.1 hmem0 with ⟨w, hw⟩
        have hjt1 : jlookup (update_module_properties m (q :: fs')) q.1 = some w := by
          rw [jlookup_update,
            if_pos (by rw [List.map_append]; exact List.mem_append_right _ hmem0), hw]
        have ht1ne : update_module_properties m (q :: fs') ≠ [] := by
          intro h
          rw [h, jlookup_eq_none_of_not_mem ([] : JObj) q.1 (by simp)] at hjt1
          exact Option.noConfusion hjt1
        have hEt1 : isEmptyObj (JVal.obj (update_module_properties m (q :: fs'))) = false := by
          cases he : update_module_properties m (q :: fs') with
          | nil => exact absurd he ht1ne
          | cons a l => rfl
        have e2 : populate_modules (populate_modules st [m]) [m]
            = storeSet (populate_modules st [m]) (create_module_key m)
              (JVal.obj (update_module_properties m
                (update_module_properties m (q :: fs')))) := by
          rw [populate_modules_single (populate_modules st [m]) m, hD1,
            if_neg (by rw [hEt1]; exact Bool.false_ne_true)]
          rfl
        rw [e2, storedModFields_set_self, hsf1]
        rw [hsmf] at hs1 hs2
        exact update_stable m (q :: fs') hm1 hm2 hs1 hs2 k
      | null =>
        exfalso
        rw [isObjOrAbsent, hst] at hobj
        exact absurd hobj Bool.false_ne_true
      | bool b =>
        exfalso
        rw [isObjOrAbsent, hst] at hobj
        exact absurd hobj Bool.false_ne_true
      | num n =>
        exfalso
        rw [isObjOrAbsent, hst] at hobj
        exact absurd hobj Bool.false_ne_true
      | str s =>
        exfalso
        rw [isObjOrAbsent, hst] at hobj
        exact absurd hobj Bool.false_ne_true
      | arr xs =>
        exfalso
        rw [isObjOrAbsent, hst] at hobj
        exact absurd hobj Bool.false_ne_true

/-! ## Small inversion lemmas for the per-claim theorems -/

def JVal.isNull : JVal → Bool
  | JVal.null => true
  | _ => false

theorem getList_none (m : JObj) (k : String)
    (h : jlookup m k = none) : getList m k = [] := by
  rw [getList, h]

theorem getNonNull_none (m : JObj) (k : String)
    (h : jlookup m k = none) : getNonNull m k = none := by
  rw [getNonNull, h]

theorem getNonNull_of_some_notnull (m : JObj) (k : String) (v : JVal)
    (h : jlookup m k = some v) (hv : v.isNull = false) : getNonNull m k = some v := by
  rw [getNonNull, h]
  cases v with
  | null => exact absurd hv (by decide)
  | bool b => rfl
  | num n => rfl
  | str s => rfl
  | arr xs => rfl
  | obj fs => rfl

theorem pair_mem_of_jlookup (m : JObj) (k : String) (v : JVal)
    (h : jlookup m k = some v) : (k, v) ∈ m := by
  rw [jlookup, assocGet] at h
  cases hf : m.find? (fun p => p.1 == k) with
  | none => rw [hf] at h; exact absurd h (by simp)
  | some p =>
    rw [hf] at h
    have hp := List.mem_of_find?_eq_some hf
    have hpk : p.1 = k := by simpa using List.find?_some hf
    have hv : p.2 = v := by simpa using h
    rw [← hpk, ← hv]
    exact hp

theorem mergeDeps_nil_left (L : List JVal) : mergeDeps [] L = L := by
  cases L with
  | nil => rfl
  | cons a rest => rfl

theorem mergeImpls_nil_left (L : List JVal) : mergeImpls [] L = L := rfl

/-- With no incoming implementations, the `implementations` branch keeps
the existing value exactly. -/
theorem mergeImplField_of_absent_new (new ex : JObj)
    (hnew : jlookup new "implementations" = none) :
    mergeImplField new ex = jlookup ex "implementations" := by
  have hni : getImpls new = [] := getImpls_none new hnew
  cases hv : jlookup ex "implementations" with
  | none => exact mergeImplField_none new ex hv
  | some v =>
    cases v with
    | obj fs =>
      cases hfs : jlookup fs "implementation" with
      | some w =>
        cases w with
        | arr exI =>
          rw [mergeImplField_obj_arr new ex fs exI hv hfs, hni, mergeImpls_nil_left,
            setFirst_self fs "implementation" _ hfs]
        | null =>
          exact mergeImplField_obj_noarr new ex fs hv
            (fun xs hcon => by rw [hfs] at hcon; exact absurd hcon (by simp))
        | bool b =>
          exact mergeImplField_obj_noarr new ex fs hv
            (fun xs hcon => by rw [hfs] at hcon; exact absurd hcon (by simp))
        | num n =>
          exact mergeImplField_obj_noarr new ex fs hv
            (fun xs hcon => by rw [hfs] at hcon; exact absurd hcon (by simp))
        | str s =>
          exact mergeImplField_obj_noarr new ex fs hv
            (fun xs hcon => by rw [hfs] at hcon; exact absurd hcon (by simp))
        | obj fs2 =>
          exact mergeImplField_obj_noarr new ex fs hv
            (fun xs hcon => by rw [hfs] at hcon; exact absurd hcon (by simp))
      | none =>
        exact mergeImplField_obj_noarr new ex fs hv
          (fun xs hcon => by rw [hfs] at hcon; exact absurd hcon (by simp))
    | null => exact mergeImplField_nonobj new ex _ hv (by intro gs h; exact absurd h (by simp))
    | bool b => exact mergeImplField_nonobj new ex _ hv (by intro gs h; exact absurd h (by simp))
    | num n => exact mergeImplField_nonobj new ex _ hv (by intro gs h; exact absurd h (by simp))
    | str s => exact mergeImplField_nonobj new ex _ hv (by intro gs h; exact absurd h (by simp))
    | arr xs => exact mergeImplField_nonobj new ex _ hv (by intro gs h; exact absurd h (by simp))

/-! ## C1: merge of records with disjoint field sets -/

def c1new : JObj := [("implementations", JVal.obj [("implementation", JVal.arr
  [JVal.obj [("vendor", JVal.str "v"), ("platform", JVal.str "p"),
    ("software-version", JVal.str "sv"), ("software-flavor", JVal.str "sf")]])])]

def c1ex : JObj := [("a", JVal.num 1)]

/-- C1, counterexample: the claim says every field present only in the
incoming record — including `implementations` — is added to the merged
record.  For the stored record `{"a": 1}` and the incoming record carrying
only an `implementations` field, the two field sets are disjoint, yet the
merge drops the incoming `implementations` field entirely (the appends in
lines 50-54 go into a temporary list when the existing record lacks the
nested list). -/
theorem c1_counterexample :
    (∃ v, jlookup c1new "implementations" = some v) ∧
    (∀ kk ∈ c1new.map Prod.fst, kk ∉ c1ex.map Prod.fst) ∧
    jlookup (update_module_properties c1new c1ex) "implementations" = none :=
  ⟨⟨_, rfl⟩, by decide, rfl⟩

/-- C1, amended: for disjoint field sets, every field present only in the
existing record survives unchanged and every field present only in the
incoming record is added — except `implementations`, which is dropped when
the existing record lacks it.  (Incoming values are assumed non-null and
dependency-kind fields are assumed to hold arrays, the shapes on which the
Python code does not raise.) -/
theorem c1_disjoint_union (new ex : JObj)
    (hdisj : ∀ k ∈ new.map Prod.fst, k ∉ ex.map Prod.fst)
    (hnn : new.all (fun p => ! p.2.isNull) = true)
    (hd1 : isListAt new "dependents" = true) (hd2 : isListAt new "dependencies" = true)
    (he1 : isListAt ex "dependents" = true) (he2 : isListAt ex "dependencies" = true) :
    (∀ k ∈ ex.map Prod.fst, jlookup (update_module_properties new ex) k = jlookup ex k) ∧
    (∀ k ∈ new.map Prod.fst, k ≠ "implementations" →
      jlookup (update_module_properties new ex) k = jlookup new k) ∧
    ("implementations" ∉ ex.map Prod.fst →
      jlookup (update_module_properties new ex) "implementations" = none) := by
  refine ⟨?_, ?_, ?_⟩
  · intro k hke
    have hknew : k ∉ new.map Prod.fst := fun hkn => hdisj k hkn hke
    have hjnew : jlookup new k = none := jlookup_eq_none_of_not_mem new k hknew
    have hmem : k ∈ (new ++ ex).map Prod.fst := by
      rw [List.map_append]
      exact List.mem_append_right _ hke
    rw [jlookup_update, if_pos hmem]
    by_cases himp : k = "implementations"
    · subst himp
      rw [mergeField_impl]
      exact mergeImplField_of_absent_new new ex hjnew
    · by_cases hdep : k = "dependents" ∨ k = "dependencies"
      · rw [mergeField_dep new ex k himp hdep]
        have hgn : getList new k = [] := getList_none new k hjnew
        rw [hgn, mergeDeps_nil_left]
        rcases jlookup_isSome_of_mem ex k hke with ⟨v, hv⟩
        have hsh : isListAt ex k = true := by
          rcases hdep with rfl | rfl
          exacts [he1, he2]
        rcases isListAt_arr ex k v hv hsh with ⟨xs, rfl⟩
        rw [getList_of_jlookup_arr ex k xs hv, hv]
      · rw [mergeField_other new ex k himp hdep, getNonNull_none new k hjnew]
  · intro k hkn hkimp
    have hkex : k ∉ ex.map Prod.fst := hdisj k hkn
    have hjex : jlookup ex k = none := jlookup_eq_none_of_not_mem ex k hkex
    have hmem : k ∈ (new ++ ex).map Prod.fst := by
      rw [List.map_append]
      exact List.mem_append_left _ hkn
    rw [jlookup_update, if_pos hmem]
    by_cases hdep : k = "dependents" ∨ k = "dependencies"
    · rw [mergeField_dep new ex k hkimp hdep, getList_none ex k hjex, mergeDeps_nil_right]
      rcases jlookup_isSome_of_mem new k hkn with ⟨v, hv⟩
      have hsh : isListAt new k = true := by
        rcases hdep with rfl | rfl
        exacts [hd1, hd2]
      rcases isListAt_arr new k v hv hsh with ⟨xs, rfl⟩
      rw [getList_of_jlookup_arr new k xs hv, hv]
    · rw [mergeField_other new ex k hkimp hdep]
      rcases jlookup_isSome_of_mem new k hkn with ⟨v, hv⟩
      have hpm : (k, v) ∈ new := pair_mem_of_jlookup new k v hv
      have hvnn : v.isNull = false := by
        have hall := List.all_eq_true.mp hnn (k, v) hpm
        simpa using hall
      rw [getNonNull_of_some_notnull new k v hv hvnn, hv]
  · intro hkex
    have hjex : jlookup ex "implementations" = none :=
      jlookup_eq_none_of_not_mem ex _ hkex
    rw [jlookup_update]
    by_cases hmem : "implementations" ∈ (new ++ ex).map Prod.fst
    · rw [if_pos hmem, mergeField_impl]
      exact mergeImplField_none new ex hjex
    · rw [if_neg hmem]

/-- C1 witness: the amended statement evaluated at the counterexample's
records. -/
theorem c1_witness :
    jlookup (update_module_properties c1new c1ex) "a" = jlookup c1ex "a" ∧
    jlookup (update_module_properties c1new c1ex) "implementations" = none := by
  have h := c1_disjoint_union c1new c1ex (by decide) (by decide)
    (by decide) (by decide) (by decide) (by decide)
  exact ⟨h.1 "a" (by decide), h.2.2 (by decide)⟩

/-! ## C2: implementations are append-only -/

/-- C2: when the incoming record's implementations list holds one entry
whose composite key matches an existing reference and one entry with a new
composite key, the merge keeps the whole existing list unchanged (as a
prefix) and appends exactly the new entry, so the length grows by one. -/
theorem c2_implementations_append_only (new ex : JObj) (fs : JObj) (exI : List JVal)
    (a b : JVal)
    (h1 : jlookup ex "implementations" = some (JVal.obj fs))
    (h2 : jlookup fs "implementation" = some (JVal.arr exI))
    (hnew : getImpls new = [a, b])
    (ha : create_implementation_key a ∈ exI.map create_implementation_key)
    (hb : create_implementation_key b ∉ exI.map create_implementation_key) :
    getImpls (update_module_properties new ex) = exI ++ [b] ∧
    (getImpls (update_module_properties new ex)).length = exI.length + 1 := by
  have hmem : "implementations" ∈ (new ++ ex).map Prod.fst := by
    rw [List.map_append]
    exact List.mem_append_right _ (mem_of_jlookup_eq_some ex _ _ h1)
  have hj : jlookup (update_module_properties new ex) "implementations"
      = mergeImplField new ex := by
    rw [jlookup_update, if_pos hmem, mergeField_impl]
  rw [mergeImplField_obj_arr new ex fs exI h1 h2, hnew,
    mergeImpls_pair a b exI ha hb] at hj
  have hinner : jlookup (setFirst fs "implementation" (JVal.arr (exI ++ [b])))
      "implementation" = some (JVal.arr (exI ++ [b])) :=
    jlookup_setFirst_self fs "implementation" _ _ h2
  have hres : getImpls (update_module_properties new ex) = exI ++ [b] :=
    getImpls_obj_arr _ _ _ hj hinner
  exact ⟨hres, by rw [hres]; simp⟩

def c2impl1 : JVal := JVal.obj [("vendor", JVal.str "cisco"), ("platform", JVal.str "p1"),
  ("software-version", JVal.str "1"), ("software-flavor", JVal.str "base"),
  ("conformance-type", JVal.str "implement")]

def c2impl1' : JVal := JVal.obj [("vendor", JVal.str "cisco"), ("platform", JVal.str "p1"),
  ("software-version", JVal.str "1"), ("software-flavor", JVal.str "base")]

def c2impl2 : JVal := JVal.obj [("vendor", JVal.str "juniper"), ("platform", JVal.str "p2"),
  ("software-version", JVal.str "2"), ("software-flavor", JVal.str "base")]

def c2ex : JObj :=
  [("name", JVal.str "m"),
   ("implementations", JVal.obj [("implementation", JVal.arr [c2impl1])])]

def c2new : JObj :=
  [("name", JVal.str "m"),
   ("implementations", JVal.obj [("implementation", JVal.arr [c2impl1', c2impl2])])]

/-- C2 witness: a concrete merge where the matching entry is left
byte-for-byte unchanged and only the new entry is appended. -/
theorem c2_witness :
    getImpls (update_module_properties c2new c2ex) = [c2impl1] ++ [c2impl2] ∧
    (getImpls (update_module_properties c2new c2ex)).length = [c2impl1].length + 1 :=
  c2_implementations_append_only c2new c2ex
    [("implementation", JVal.arr [c2impl1])] [c2impl1] c2impl1' c2impl2
    (by rfl) (by rfl) (by rfl) (by decide) (by decide)

/-! ## C3: dependents/dependencies merge rule -/

/-- C3: for the dependency-kind fields, an incoming entry whose `name`
matches an existing entry replaces that entry in place at its original
position, and an incoming entry with a new name is appended; pre-existing
entries keep their positions.  Names are assumed pairwise distinct on both
sides, the data model's "set of Dependency, unique by name" (§3). -/
theorem c3_dependency_merge (new ex : JObj) (k : String)
    (hk : k = "dependents" ∨ k = "dependencies")
    (hN : ((getList new k).map depName).Nodup)
    (hO : ((getList ex k).map depName).Nodup) :
    getList (update_module_properties new ex) k
      = (getList ex k).map (depReplace (getList new k))
        ++ depNovel (getList new k) ((getList ex k).map depName) := by
  have himp : ¬ k = "implementations" := by
    rcases hk with rfl | rfl <;> decide
  by_cases hmem : k ∈ (new ++ ex).map Prod.fst
  · have hj : jlookup (update_module_properties new ex) k
        = some (JVal.arr (mergeDeps (getList new k) (getList ex k))) := by
      rw [jlookup_update, if_pos hmem, mergeField_dep new ex k himp hk]
    rw [getList_of_jlookup_arr _ _ _ hj]
    exact mergeDeps_formula _ _ hN hO
  · have hj : jlookup (update_module_properties new ex) k = none := by
      rw [jlookup_update, if_neg hmem]
    have hknew : k ∉ new.map Prod.fst := by
      intro h
      exact hmem (by rw [List.map_append]; exact List.mem_append_left _ h)
    have hkex : k ∉ ex.map Prod.fst := by
      intro h
      exact hmem (by rw [List.map_append]; exact List.mem_append_right _ h)
    rw [getList_none _ _ hj,
      getList_none new k (jlookup_eq_none_of_not_mem new k hknew),
      getList_none ex k (jlookup_eq_none_of_not_mem ex k hkex)]
    rfl

def c3d1 : JVal := JVal.obj [("name", JVal.str "d1")]
def c3d1x : JVal := JVal.obj [("name", JVal.str "d1"), ("extra", JVal.str "x")]
def c3d2 : JVal := JVal.obj [("name", JVal.str "d2")]

def c3ex : JObj := [("name", JVal.str "m"), ("revision", JVal.str "2020-01-01"),
  ("organization", JVal.str "ietf"), ("dependents", JVal.arr [c3d1])]

def c3new : JObj := [("name", JVal.str "m"), ("revision", JVal.str "2020-01-01"),
  ("organization", JVal.str "ietf"), ("dependents", JVal.arr [c3d1x, c3d2])]

/-- C3 witness: the spec's concrete scenario — stored dependents
`[{name:d1}]` merged with incoming `[{name:d1, extra:x}, {name:d2}]`
yields exactly `[{name:d1, extra:x}, {name:d2}]`. -/
theorem c3_witness :
    getList (update_module_properties c3new c3ex) "dependents" = [c3d1x, c3d2] := by
  have h := c3_dependency_merge c3new c3ex "dependents" (Or.inl rfl)
    (by decide) (by decide)
  rw [h]
  rfl

/-! ## C5: vendor key round-trip -/

theorem replaceChar_append (a b : Char) (l₁ l₂ : List Char) :
    replaceChar a b (l₁ ++ l₂) = replaceChar a b l₁ ++ replaceChar a b l₂ :=
  List.map_append _ _ _

theorem replaceChar_inverse (v : List Char) (hv : '#' ∉ v) :
    replaceChar '#' ' ' (replaceChar ' ' '#' v) = v := by
  induction v with
  | nil => rfl
  | cons c rest ih =>
    have hc : c ≠ '#' := fun h => hv (h ▸ List.mem_cons_self c rest)
    have hrest : '#' ∉ rest := fun h => hv (List.mem_cons_of_mem _ h)
    show (if (if c = ' ' then '#' else c) = '#' then ' '
          else (if c = ' ' then '#' else c))
        :: replaceChar '#' ' ' (replaceChar ' ' '#' rest) = c :: rest
    rw [ih hrest]
    congr 1
    by_cases hsp : c = ' '
    · rw [if_pos hsp, if_pos rfl, hsp]
    · rw [if_neg hsp, if_neg hc]

theorem slash_not_mem_replace (v : List Char) (hv : '/' ∉ v) :
    '/' ∉ replaceChar ' ' '#' v := by
  intro h
  rcases List.mem_map.mp h with ⟨c, hc, heq⟩
  by_cases hsp : c = ' '
  · rw [if_pos hsp] at heq
    exact absurd heq (by decide)
  · rw [if_neg hsp] at heq
    exact hv (heq ▸ hc)

theorem replaceChar_slash_cons (y : List Char) :
    replaceChar '#' ' ' ('/' :: y) = '/' :: replaceChar '#' ' ' y := rfl

theorem splitSlash_no_slash (a : List Char) (ha : '/' ∉ a) : splitSlash a = [a] := by
  induction a with
  | nil => rfl
  | cons c rest ih =>
    have hc : c ≠ '/' := fun h => ha (h ▸ List.mem_cons_self c rest)
    have hrest : '/' ∉ rest := fun h => ha (List.mem_cons_of_mem _ h)
    simp only [splitSlash, if_neg hc, ih hrest]

theorem splitSlash_append (a : List Char) (r : List Char) (ha : '/' ∉ a) :
    splitSlash (a ++ '/' :: r) = a :: splitSlash r := by
  induction a with
  | nil =>
    show splitSlash ('/' :: r) = [] :: splitSlash r
    simp [splitSlash]
  | cons c rest ih =>
    have hc : c ≠ '/' := fun h => ha (h ▸ List.mem_cons_self c rest)
    have hrest : '/' ∉ rest := fun h => ha (List.mem_cons_of_mem _ h)
    rw [List.cons_append]
    simp only [splitSlash, if_neg hc, ih hrest]

/-- Segment guard: neither the placeholder `#` nor the separator `/`
occurs. -/
def noHashSlash (s : String) : Bool :=
  s.data.all (fun c => !(c = '#') && !(c = '/'))

theorem noHashSlash_spec (s : String) (h : noHashSlash s = true) :
    '#' ∉ s.data ∧ '/' ∉ s.data := by
  rw [noHashSlash] at h
  have hall := List.all_eq_true.mp h
  constructor
  · intro hm
    have := hall '#' hm
    simp at this
  · intro hm
    have := hall '/' hm
    simp at this

/-- C5, counterexample: the claim quantifies over all strings, but a
segment containing the placeholder `#` does not survive the round trip —
`a#b` decodes back as `a b`. -/
theorem c5_counterexample :
    decodeVendorKey (vendorKey "a#b" "p" "sv" "sf") ≠ ["a#b", "p", "sv", "sf"] := by
  decide

/-- C5, amended: for vendor tuples whose segments contain neither the
placeholder `#` nor the separator `/` (embedded spaces allowed), building
the vendor-partition key and decoding it back yields exactly the four
original segments. -/
theorem c5_vendor_key_roundtrip (v p sv sf : String)
    (hv : noHashSlash v = true) (hp : noHashSlash p = true)
    (hsv : noHashSlash sv = true) (hsf : noHashSlash sf = true) :
    decodeVendorKey (vendorKey v p sv sf) = [v, p, sv, sf] := by
  rcases noHashSlash_spec v hv with ⟨hv1, hv2⟩
  rcases noHashSlash_spec p hp with ⟨hp1, hp2⟩
  rcases noHashSlash_spec sv hsv with ⟨hsv1, hsv2⟩
  rcases noHashSlash_spec sf hsf with ⟨hsf1, hsf2⟩
  have hdata : (vendorKey v p sv sf).data
      = replaceChar ' ' '#' v.data ++ '/' :: (replaceChar ' ' '#' p.data
        ++ '/' :: (replaceChar ' ' '#' sv.data ++ '/' :: replaceChar ' ' '#' sf.data)) := by
    show (String.mk (replaceChar ' ' '#' v.data) ++ "/"
        ++ String.mk (replaceChar ' ' '#' p.data) ++ "/"
        ++ String.mk (replaceChar ' ' '#' sv.data) ++ "/"
        ++ String.mk (replaceChar ' ' '#' sf.data)).data = _
    simp only [String.data_append, List.append_assoc]
    rfl
  rw [decodeVendorKey, hdata]
  rw [replaceChar_append, replaceChar_slash_cons, replaceChar_append,
    replaceChar_slash_cons, replaceChar_append, replaceChar_slash_cons]
  rw [replaceChar_inverse v.data hv1, replaceChar_inverse p.data hp1,
    replaceChar_inverse sv.data hsv1, replaceChar_inverse sf.data hsf1]
  rw [splitSlash_append v.data _ hv2, splitSlash_append p.data _ hp2,
    splitSlash_append sv.data _ hsv2, splitSlash_no_slash sf.data hsf2]
  rfl

/-- C5 witness: a tuple with embedded spaces round-trips exactly. -/
theorem c5_witness :
    decodeVendorKey (vendorKey "Cisco Systems" "Nexus 9k" "v 1.0" "base os")
      = ["Cisco Systems", "Nexus 9k", "v 1.0", "base os"] :=
  c5_vendor_key_roundtrip "Cisco Systems" "Nexus 9k" "v 1.0" "base os"
    (by decide) (by decide) (by decide) (by decide)

/-! ## C6: module-cache rebuild -/

/-- Looking up a key in a list filtered by a key-only predicate. -/
theorem assocGet_filter_key {α : Type} (l : List (String × α)) (q : String → Bool)
    (k : String) :
    assocGet (l.filter (fun p => q p.1)) k
      = if q k = true then assocGet l k else none := by
  induction l with
  | nil =>
    cases hq : q k <;> simp [assocGet]
  | cons p rest ih =>
    obtain ⟨k₀, v₀⟩ := p
    rw [List.filter_cons]
    by_cases hq₀ : q k₀ = true
    · rw [if_pos hq₀, assocGet_cons]
      by_cases hk : k₀ = k
      · have hqk : q k = true := hk ▸ hq₀
        rw [if_pos hk, if_pos hqk, assocGet_cons, if_pos hk]
      · rw [if_neg hk, ih]
        cases hq : q k with
        | true => rw [if_pos rfl, if_pos rfl, assocGet_cons, if_neg hk]
        | false => rw [if_neg (by simp), if_neg (by simp)]
    · rw [if_neg hq₀, ih]
      by_cases hk : k₀ = k
      · have hq0f : q k₀ = false := by
          cases hqq : q k₀
          · rfl
          · exact absurd hqq hq₀
        have hqkf : q k = false := hk ▸ hq0f
        rw [if_neg (by rw [hqkf]; simp), if_neg (by rw [hqkf]; simp)]
      · cases hq : q k with
        | true => rw [if_pos rfl, if_pos rfl, assocGet_cons, if_neg hk]
        | false => rw [if_neg (by simp), if_neg (by simp)]

/-- Overwriting a key that the (key-only) filter rejects leaves the
filtered list unchanged. -/
theorem filter_assocSet_excluded {α : Type} (l : List (String × α)) (k : String)
    (v : α) (q : String → Bool) (hq : q k = false) :
    (assocSet l k v).filter (fun p => q p.1) = l.filter (fun p => q p.1) := by
  induction l with
  | nil =>
    show [(k, v)].filter (fun p => q p.1) = []
    rw [List.filter_cons]
    rw [if_neg (by rw [hq]; simp)]
    rfl
  | cons p rest ih =>
    obtain ⟨k₀, v₀⟩ := p
    by_cases hk : k₀ = k
    · subst hk
      rw [show assocSet ((k₀, v₀) :: rest) k₀ v = (k₀, v) :: rest from by simp [assocSet]]
      rw [List.filter_cons, List.filter_cons]
      rw [if_neg (by rw [hq]; simp), if_neg (by rw [hq]; simp)]
    · rw [show assocSet ((k₀, v₀) :: rest) k v = (k₀, v₀) :: assocSet rest k v from by
        simp [assocSet, hk]]
      rw [List.filter_cons, List.filter_cons]
      cases hq₀ : q k₀ with
      | true => rw [if_pos rfl, if_pos rfl, ih]
      | false => rw [if_neg (by simp), if_neg (by simp), ih]

/-- C6: after a cache rebuild, the aggregate stored under `modules-data`
maps exactly every scanned key — every key other than `modules-data` and
free of `:` — to its stored record, with no extras and no omissions; and
rebuilding again without intervening writes reproduces the store
verbatim. -/
theorem c6_reload_modules_cache (st : MStore) (k : String) :
    jlookup (objFields (storeGetD (reload_modules_cache st) "modules-data")) k
      = (if (!(k == "modules-data") && !(k.data.contains ':')) = true
         then storeGet st k else none)
    ∧ reload_modules_cache (reload_modules_cache st) = reload_modules_cache st := by
  constructor
  · rw [reload_modules_cache, storeGetD_set_self]
    show assocGet (st.filter (fun p => (!(p.1 == "modules-data") && !(p.1.data.contains ':')))) k = _
    exact assocGet_filter_key st (fun k' => !(k' == "modules-data") && !(k'.data.contains ':')) k
  · rw [reload_modules_cache, reload_modules_cache]
    simp only [storeSet]
    rw [filter_assocSet_excluded st "modules-data" _
      (fun k' => !(k' == "modules-data") && !(k'.data.contains ':')) (by simp)]
    rw [assocSet_assocSet]

/-! ## C9: module key derivation -/

/-- C9, counterexample: key derivation performs no validation and never
raises — a record missing all three identity fields yields the key
`None@None/None`, and `populate_modules` then writes the record under that
key, while the claim says a `MalformedRecord` failure occurs before
anything is written. -/
theorem c9_counterexample :
    create_module_key [] = "None@None/None" ∧
    storeGet (populate_modules [] [([] : JObj)]) "None@None/None"
      = some (JVal.obj []) :=
  ⟨rfl, rfl⟩

/-- C9, amended: for records carrying the three identity fields as strings
the canonical key is `<name>@<revision>/<organization>`; derivation never
fails — a missing identity field is rendered as the string `None`
(Python's `str(None)`) and `populate_modules` writes under the resulting
key regardless. -/
theorem c9_module_key (m : JObj) (n r o : String)
    (hn : jlookup m "name" = some (JVal.str n))
    (hr : jlookup m "revision" = some (JVal.str r))
    (ho : jlookup m "organization" = some (JVal.str o)) :
    create_module_key m = n ++ "@" ++ r ++ "/" ++ o ∧
    create_module_key [] = "None@None/None" ∧
    storeGet (populate_modules [] [([] : JObj)]) "None@None/None"
      = some (JVal.obj []) := by
  refine ⟨?_, rfl, rfl⟩
  rw [create_module_key, hn, hr, ho]
  rfl

def c9m : JObj := [("name", JVal.str "yang-catalog"),
  ("revision", JVal.str "2018-04-03"), ("organization", JVal.str "ietf")]

/-- C9 witness: the amended statement at a concrete well-formed record. -/
theorem c9_witness :
    create_module_key c9m = "yang-catalog" ++ "@" ++ "2018-04-03" ++ "/" ++ "ietf" ∧
    create_module_key [] = "None@None/None" ∧
    storeGet (populate_modules [] [([] : JObj)]) "None@None/None"
      = some (JVal.obj []) :=
  c9_module_key c9m "yang-catalog" "2018-04-03" "ietf" rfl rfl rfl

/-! ## C8 / C10 deletion helpers -/

theorem delete_implementation_no_match (st : MStore) (key arg : String)
    (h : (getImpls (storedModFields st key)).findIdx?
        (fun impl => commaKey impl == arg) = none) :
    delete_implementation st key arg = (st, false) := by
  show (match (getImpls (storedModFields st key)).findIdx?
      (fun impl => commaKey impl == arg) with
    | some i => (storeSet st key (JVal.obj (setImplList (storedModFields st key)
        ((getImpls (storedModFields st key)).eraseIdx i))), true)
    | none => (st, false)) = (st, false)
  rw [h]

theorem delete_implementation_match (st : MStore) (key arg : String) (i : Nat)
    (h : (getImpls (storedModFields st key)).findIdx?
        (fun impl => commaKey impl == arg) = some i) :
    delete_implementation st key arg
      = (storeSet st key (JVal.obj (setImplList (storedModFields st key)
          ((getImpls (storedModFields st key)).eraseIdx i))), true) := by
  show (match (getImpls (storedModFields st key)).findIdx?
      (fun impl => commaKey impl == arg) with
    | some i => (storeSet st key (JVal.obj (setImplList (storedModFields st key)
        ((getImpls (storedModFields st key)).eraseIdx i))), true)
    | none => (st, false)) = _
  rw [h]

theorem delete_dependent_no_match (st : MStore) (key name : String)
    (h : (getList (storedModFields st key) "dependents").findIdx?
        (fun d => depName d == some name) = none) :
    delete_dependent st key name = (st, false) := by
  show (match (getList (storedModFields st key) "dependents").findIdx?
      (fun d => depName d == some name) with
    | none => (st, false)
    | some i => (storeSet st key (JVal.obj (setFirst (storedModFields st key)
        "dependents" (JVal.arr ((getList (storedModFields st key) "dependents").eraseIdx i)))),
        true)) = (st, false)
  rw [h]

theorem getImpls_shape (m : JObj) (h : getImpls m ≠ []) :
    ∃ ifs, jlookup m "implementations" = some (JVal.obj ifs) ∧
      jlookup ifs "implementation" = some (JVal.arr (getImpls m)) := by
  cases hv : jlookup m "implementations" with
  | none => exact absurd (getImpls_none m hv) h
  | some v =>
    cases v with
    | obj fs =>
      cases hfs : jlookup fs "implementation" with
      | some w =>
        cases w with
        | arr xs =>
          refine ⟨fs, rfl, ?_⟩
          rw [getImpls_obj_arr m fs xs hv hfs]
          exact hfs
        | null =>
          exfalso
          refine h ?_
          rw [getImpls, hv]
          show (match jlookup fs "implementation" with
            | some (JVal.arr xs) => xs
            | _ => ([] : List JVal)) = []
          rw [hfs]
        | bool b =>
          exfalso
          refine h ?_
          rw [getImpls, hv]
          show (match jlookup fs "implementation" with
            | some (JVal.arr xs) => xs
            | _ => ([] : List JVal)) = []
          rw [hfs]
        | num n =>
          exfalso
          refine h ?_
          rw [getImpls, hv]
          show (match jlookup fs "implementation" with
            | some (JVal.arr xs) => xs
            | _ => ([] : List JVal)) = []
          rw [hfs]
        | str s =>
          exfalso
          refine h ?_
          rw [getImpls, hv]
          show (match jlookup fs "implementation" with
            | some (JVal.arr xs) => xs
            | _ => ([] : List JVal)) = []
          rw [hfs]
        | obj fs2 =>
          exfalso
          refine h ?_
          rw [getImpls, hv]
          show (match jlookup fs "implementation" with
            | some (JVal.arr xs) => xs
            | _ => ([] : List JVal)) = []
          rw [hfs]
      | none =>
        exfalso
        refine h ?_
        rw [getImpls, hv]
        show (match jlookup fs "implementation" with
          | some (JVal.arr xs) => xs
          | _ => ([] : List JVal)) = []
        rw [hfs]
    | null => exact absurd (by rw [getImpls, hv]; rfl) h
    | bool b => exact absurd (by rw [getImpls, hv]; rfl) h
    | num n => exact absurd (by rw [getImpls, hv]; rfl) h
    | str s => exact absurd (by rw [getImpls, hv]; rfl) h
    | arr xs => exact absurd (by rw [getImpls, hv]; rfl) h

/-! ## C8: delete_implementation key format -/

def c8impl : JVal := JVal.obj [("vendor", JVal.str "a"), ("platform", JVal.str "b"),
  ("software-version", JVal.str "c"), ("software-flavor", JVal.str "d")]

def c8st : MStore := [("m@r/o", JVal.obj [("implementations",
  JVal.obj [("implementation", JVal.arr [c8impl])])])]

/-- C8, counterexample: the stored record holds exactly one implementation
whose §4.1 composite key (`create_implementation_key`) is `a/b/c/d`, yet
`delete_implementation` with that key removes nothing and reports `false` —
it compares against the comma-joined key `a,b,c,d` instead. -/
theorem c8_counterexample :
    create_implementation_key c8impl = "a/b/c/d" ∧
    getImpls (storedModFields c8st "m@r/o") = [c8impl] ∧
    delete_implementation c8st "m@r/o" "a/b/c/d" = (c8st, false) :=
  ⟨rfl, rfl, rfl⟩

/-- C8, amended: `delete_implementation` removes an entry iff its
comma-joined raw four fields (`','.join`, no space replacement — not the
§4.1 slash/`#` key) equal the supplied argument; it removes exactly the
first such entry, re-stores the record exactly when a removal occurred
(other keys untouched), and the returned flag reports whether a removal
happened. -/
theorem c8_delete_implementation (st : MStore) (key arg : String) :
    ((delete_implementation st key arg).2
      = ((getImpls (storedModFields st key)).findIdx?
          (fun impl => commaKey impl == arg)).isSome) ∧
    ((getImpls (storedModFields st key)).findIdx?
        (fun impl => commaKey impl == arg) = none →
      delete_implementation st key arg = (st, false)) ∧
    (∀ i, (getImpls (storedModFields st key)).findIdx?
        (fun impl => commaKey impl == arg) = some i →
      (delete_implementation st key arg).2 = true ∧
      getImpls (storedModFields (delete_implementation st key arg).1 key)
        = (getImpls (storedModFields st key)).eraseIdx i ∧
      (∀ k', k' ≠ key →
        storeGet (delete_implementation st key arg).1 k' = storeGet st k')) := by
  refine ⟨?_, delete_implementation_no_match st key arg, ?_⟩
  · cases hf : (getImpls (storedModFields st key)).findIdx?
        (fun impl => commaKey impl == arg) with
    | none =>
      rw [delete_implementation_no_match st key arg hf]
      rfl
    | some i =>
      rw [delete_implementation_match st key arg i hf]
      rfl
  · intro i hf
    rw [delete_implementation_match st key arg i hf]
    have hne : getImpls (storedModFields st key) ≠ [] := by
      intro h0
      rw [h0] at hf
      exact Option.noConfusion hf
    rcases getImpls_shape _ hne with ⟨ifs, h1, h2⟩
    have hset : setImplList (storedModFields st key)
        ((getImpls (storedModFields st key)).eraseIdx i)
        = setFirst (storedModFields st key) "implementations"
          (JVal.obj (setFirst ifs "implementation"
            (JVal.arr ((getImpls (storedModFields st key)).eraseIdx i)))) := by
      show (match jlookup (storedModFields st key) "implementations" with
        | some (JVal.obj ifs') =>
          setFirst (storedModFields st key) "implementations"
            (JVal.obj (setFirst ifs' "implementation"
              (JVal.arr ((getImpls (storedModFields st key)).eraseIdx i))))
        | _ => storedModFields st key) = _
      rw [h1]
    refine ⟨rfl, ?_, ?_⟩
    · show getImpls (storedModFields (storeSet st key (JVal.obj (setImplList
        (storedModFields st key) ((getImpls (storedModFields st key)).eraseIdx i)))) key) = _
      rw [hset, storedModFields_set_self]
      have h1' := jlookup_setFirst_self (storedModFields st key) "implementations"
        (JVal.obj (setFirst ifs "implementation"
          (JVal.arr ((getImpls (storedModFields st key)).eraseIdx i)))) _ h1
      have h2' := jlookup_setFirst_self ifs "implementation"
        (JVal.arr ((getImpls (storedModFields st key)).eraseIdx i)) _ h2
      exact getImpls_obj_arr _ _ _ h1' h2'
    · intro k' hk'
      show storeGet (storeSet st key _) k' = storeGet st k'
      rw [storeGet, storeSet]
      exact assocGet_set_other st key k' _ hk'

/-- C8 witness: with the comma-joined key the single entry is removed, the
record is re-stored and the flag is `true`. -/
theorem c8_witness :
    (delete_implementation c8st "m@r/o" "a,b,c,d").2 = true ∧
    getImpls (storedModFields (delete_implementation c8st "m@r/o" "a,b,c,d").1 "m@r/o")
      = (getImpls (storedModFields c8st "m@r/o")).eraseIdx 0 := by
  have h := (c8_delete_implementation c8st "m@r/o" "a,b,c,d").2.2 0 (by rfl)
  exact ⟨h.1, h.2.1⟩

/-! ## C10: delete_expires writes unconditionally -/

theorem eraseField_of_absent (fs : JObj) (k : String)
    (h : jlookup fs k = none) : eraseField fs k = fs := by
  have hf : fs.find? (fun p => p.1 == k) = none := by
    cases hff : fs.find? (fun p => p.1 == k) with
    | none => rfl
    | some p =>
      rw [jlookup, assocGet, hff] at h
      exact absurd h (by simp)
  rw [eraseField]
  apply List.filter_eq_self.mpr
  intro p hp
  have hnp := List.find?_eq_none.mp hf p hp
  simpa using hnp

/-- C10: `delete_dependent` and `delete_implementation` leave the store
unchanged and report `false` when no matching sub-element exists, while
`delete_expires` re-stores the record and returns the store-write result
unconditionally, even when there is no `expires` field; for a module with
no stored record it writes an empty object under the module's canonical
key, creating a previously-absent key. -/
theorem c10_delete_expires_always_writes :
    (∀ (st : MStore) (key name : String),
      (getList (storedModFields st key) "dependents").findIdx?
          (fun d => depName d == some name) = none →
      delete_dependent st key name = (st, false)) ∧
    (∀ (st : MStore) (key arg : String),
      (getImpls (storedModFields st key)).findIdx?
          (fun impl => commaKey impl == arg) = none →
      delete_implementation st key arg = (st, false)) ∧
    (∀ (st : MStore) (m : JObj), (delete_expires st m).2 = true) ∧
    (∀ (st : MStore) (m : JObj) (fs : JObj),
      storeGet st (create_module_key m) = some (JVal.obj fs) →
      jlookup fs "expires" = none →
      (delete_expires st m).1 = storeSet st (create_module_key m) (JVal.obj fs)) ∧
    (∀ (st : MStore) (m : JObj),
      storeGet st (create_module_key m) = none →
      storeGet (delete_expires st m).1 (create_module_key m)
        = some (JVal.obj [])) := by
  refine ⟨delete_dependent_no_match, delete_implementation_no_match, ?_, ?_, ?_⟩
  · intro st m
    rfl
  · intro st m fs h1 h2
    show storeSet st (create_module_key m)
      (JVal.obj (eraseField (storedModFields st (create_module_key m)) "expires")) = _
    have hsf : storedModFields st (create_module_key m) = fs := by
      rw [storedModFields, storeGetD, h1]
      rfl
    rw [hsf, eraseField_of_absent fs "expires" h2]
  · intro st m h1
    have hsf : storedModFields st (create_module_key m) = [] := by
      rw [storedModFields, storeGetD, h1]
      rfl
    show storeGet (storeSet st (create_module_key m)
      (JVal.obj (eraseField (storedModFields st (create_module_key m)) "expires")))
      (create_module_key m) = _
    rw [hsf]
    show storeGet (storeSet st (create_module_key m) (JVal.obj [])) (create_module_key m) = _
    rw [storeGet, storeSet]
    exact assocGet_set_self st (create_module_key m) (JVal.obj [])

/-- C10 witness: on an empty store, deleting `expires` for a record with
canonical key `None@None/None` creates that key with an empty object and
reports the successful write; the two targeted deletions on the same empty
store are no-ops reporting `false`. -/
theorem c10_witness :
    delete_dependent [] "k" "d" = ([], false) ∧
    delete_implementation [] "k" "a,b,c,d" = ([], false) ∧
    (delete_expires [] []).2 = true ∧
    storeGet (delete_expires [] []).1 (create_module_key []) = some (JVal.obj []) := by
  have h := c10_delete_expires_always_writes
  exact ⟨h.1 [] "k" "d" rfl, h.2.1 [] "k" "a,b,c,d" rfl, h.2.2.1 [] [],
    h.2.2.2.2 [] [] rfl⟩

def c4m : JObj := [("name", JVal.str "m"), ("revision", JVal.str "r"),
  ("organization", JVal.str "o"),
  ("dependents", JVal.arr [JVal.obj [("name", JVal.str "d1")]])]

/-- C4 witness: populating the same record twice into an empty store
leaves the stored `dependents` field as after one populate. -/
theorem c4_witness :
    jlookup (storedModFields (populate_modules (populate_modules ([] : MStore) [c4m]) [c4m])
        (create_module_key c4m)) "dependents"
      = jlookup (storedModFields (populate_modules ([] : MStore) [c4m])
          (create_module_key c4m)) "dependents" :=
  c4_populate_modules_idempotent [] c4m (by rfl) (by rfl) (by decide) (by decide)
    (by rfl) (by decide) (by decide) "dependents"

/-! ## Generic association lookup membership -/

theorem assocGet_eq_none_of_not_mem {α : Type} : ∀ (l : List (String × α)) (k : String),
    k ∉ l.map Prod.fst → assocGet l k = none := by
  intro l
  induction l with
  | nil => intro k _; rfl
  | cons p rest ih =>
    intro k h
    obtain ⟨k₀, v₀⟩ := p
    have hk₀ : ¬ k₀ = k := by
      intro hh
      exact h (by simp [hh])
    rw [assocGet_cons, if_neg hk₀]
    exact ih k (fun hm => h (List.mem_cons_of_mem _ hm))

theorem mem_of_assocGet_eq_some {α : Type} (l : List (String × α)) (k : String) (v : α)
    (h : assocGet l k = some v) : k ∈ l.map Prod.fst := by
  by_cases hm : k ∈ l.map Prod.fst
  · exact hm
  · rw [assocGet_eq_none_of_not_mem l k hm] at h
    exact absurd h (by simp)

theorem assocSet_keys {α : Type} : ∀ (l : List (String × α)) (k : String) (v : α),
    (assocSet l k v).map Prod.fst
      = if k ∈ l.map Prod.fst then l.map Prod.fst else l.map Prod.fst ++ [k] := by
  intro l
  induction l with
  | nil => intro k v; simp [assocSet]
  | cons p rest ih =>
    intro k v
    obtain ⟨k₀, v₀⟩ := p
    by_cases hk : k₀ = k
    · rw [show assocSet ((k₀, v₀) :: rest) k v = (k, v) :: rest from by simp [assocSet, hk]]
      rw [if_pos (by simp [hk])]
      simp [hk]
    · rw [show assocSet ((k₀, v₀) :: rest) k v = (k₀, v₀) :: assocSet rest k v from by
        simp [assocSet, hk]]
      by_cases hmem : k ∈ rest.map Prod.fst
      · rw [if_pos (by simp [hmem])]
        simp only [List.map_cons, ih, if_pos hmem]
      · have hmem' : k ∉ ((k₀, v₀) :: rest).map Prod.fst := by
          intro hc
          rw [List.map_cons] at hc
          rcases List.mem_cons.mp hc with hh | hh
          · exact hk hh.symm
          · exact hmem hh
        rw [if_neg hmem']
        simp only [List.map_cons, ih, if_neg hmem]
        rfl

theorem assocSet_keys_nodup {α : Type} (l : List (String × α)) (k : String) (v : α)
    (h : (l.map Prod.fst).Nodup) : ((assocSet l k v).map Prod.fst).Nodup := by
  rw [assocSet_keys]
  by_cases hm : k ∈ l.map Prod.fst
  · rw [if_pos hm]
    exact h
  · rw [if_neg hm]
    rw [List.nodup_append]
    exact ⟨h, List.nodup_singleton _, by
      intro a ha hb
      rw [List.mem_singleton] at hb
      exact hm (hb ▸ ha)⟩

/-! ## Vendor accumulation: distinct keys -/

theorem foldl_preserve {α β : Type} (P : α → Prop) (f : α → β → α)
    (hf : ∀ a b, P a → P (f a b)) : ∀ (l : List β) (a : α), P a → P (l.foldl f a) := by
  intro l
  induction l with
  | nil => intro a ha; exact ha
  | cons x xs ih => intro a ha; exact ih (f a x) (hf a x ha)

theorem not_mem_of_assocGet_eq_none {α : Type} : ∀ (l : List (String × α)) (k : String),
    assocGet l k = none → k ∉ l.map Prod.fst := by
  intro l
  induction l with
  | nil => intro k _; simp
  | cons p rest ih =>
    intro k h
    obtain ⟨k₀, v₀⟩ := p
    rw [assocGet_cons] at h
    by_cases hk : k₀ = k
    · rw [if_pos hk] at h
      exact absurd h (by simp)
    · rw [if_neg hk] at h
      intro hm
      rw [List.map_cons] at hm
      rcases List.mem_cons.mp hm with hh | hh
      · exact hk hh.symm
      · exact ih k h hh

theorem findKey_isSome_eq {α : Type} (l : List (String × α)) (k : String) :
    (l.find? (fun p => p.1 == k)).isSome = (assocGet l k).isSome := by
  rw [assocGet]
  cases l.find? (fun p => p.1 == k) <;> rfl

theorem bumpLeaf_keys : ∀ (d : List (String × LeafData)) (k : String) (ms : List JObj),
    (bumpLeaf d k ms).map Prod.fst = d.map Prod.fst := by
  intro d
  induction d with
  | nil => intro k ms; rfl
  | cons p rest ih =>
    intro k ms
    obtain ⟨k₀, ld⟩ := p
    rw [bumpLeaf]
    by_cases hk : k₀ = k
    · rw [if_pos hk]
      rfl
    · rw [if_neg hk, List.map_cons, List.map_cons, ih k ms]

theorem addFlavor_nodup (d : List (String × LeafData)) (key : String) (fl : SwFlavor)
    (h : (d.map Prod.fst).Nodup) : ((addFlavor d key fl).map Prod.fst).Nodup := by
  rw [addFlavor]
  by_cases hf : (d.find? (fun p => p.1 == key)).isSome
  · rw [if_pos hf, bumpLeaf_keys]
    exact h
  · rw [if_neg hf]
    have hnone : assocGet d key = none := by
      rw [findKey_isSome_eq] at hf
      cases hc : assocGet d key with
      | none => rfl
      | some v => rw [hc] at hf; exact absurd rfl hf
    have hnm : key ∉ d.map Prod.fst := not_mem_of_assocGet_eq_none d key hnone
    rw [List.map_append]
    rw [List.nodup_append]
    exact ⟨h, List.nodup_singleton _, by
      intro a ha hb
      rw [show ([(key, (⟨fl.protocols, fl.modules⟩ : LeafData))].map Prod.fst) = [key] from rfl,
        List.mem_singleton] at hb
      exact hnm (hb ▸ ha)⟩

theorem accumulate_nodup (blocks : List VendorBlock) :
    ((accumulate blocks).map Prod.fst).Nodup := by
  rw [accumulate]
  refine foldl_preserve (fun d : List (String × LeafData) => (d.map Prod.fst).Nodup) _ ?_ blocks [] List.nodup_nil
  intro d blk hd
  refine foldl_preserve (fun d : List (String × LeafData) => (d.map Prod.fst).Nodup) _ ?_ blk.platforms d hd
  intro d2 pl hd2
  refine foldl_preserve (fun d : List (String × LeafData) => (d.map Prod.fst).Nodup) _ ?_ pl.versions d2 hd2
  intro d3 sv hd3
  refine foldl_preserve (fun d : List (String × LeafData) => (d.map Prod.fst).Nodup) _ ?_ sv.flavors d3 hd3
  intro d4 fl hd4
  exact addFlavor_nodup d4 _ fl hd4

/-! ## The write-back loop of populate_implementation -/

theorem writeLeaf_value (st : VStore) (p : String × LeafData) :
    vsGet (writeLeaf st p) p.1
      = some (match vsGet st p.1 with
              | none => p.2
              | some ex => ⟨ex.protocols, merge_data_modules ex.modules p.2.modules⟩) := by
  rw [writeLeaf]
  cases h : vsGet st p.1 with
  | none => exact assocGet_set_self st p.1 p.2
  | some ex => exact assocGet_set_self st p.1 _

theorem writeLeaf_other (st : VStore) (p : String × LeafData) (k : String) (h : k ≠ p.1) :
    vsGet (writeLeaf st p) k = vsGet st k := by
  rw [writeLeaf]
  cases vsGet st p.1 with
  | none => exact assocGet_set_other st p.1 k p.2 h
  | some ex => exact assocGet_set_other st p.1 k _ h

theorem foldl_writeLeaf_not_mem : ∀ (accl : List (String × LeafData)) (st : VStore) (key : String),
    key ∉ accl.map Prod.fst →
    vsGet (accl.foldl writeLeaf st) key = vsGet st key := by
  intro accl
  induction accl with
  | nil => intro st key _; rfl
  | cons p rest ih =>
    intro st key h
    rw [List.map_cons] at h
    have h1 : key ≠ p.1 := by
      intro hh
      exact h (by rw [hh]; exact List.mem_cons_self _ _)
    have h2 : key ∉ rest.map Prod.fst := fun hm => h (List.mem_cons_of_mem _ hm)
    rw [List.foldl_cons, ih (writeLeaf st p) key h2, writeLeaf_other st p key h1]

theorem foldl_writeLeaf_lookup :
    ∀ (accl : List (String × LeafData)) (st : VStore) (key : String) (nd : LeafData),
    (accl.map Prod.fst).Nodup → assocGet accl key = some nd →
    vsGet (accl.foldl writeLeaf st) key
      = some (match vsGet st key with
              | none => nd
              | some ex => ⟨ex.protocols, merge_data_modules ex.modules nd.modules⟩) := by
  intro accl
  induction accl with
  | nil =>
    intro st key nd _ h
    exact absurd h (by simp [assocGet])
  | cons p rest ih =>
    intro st key nd hnd hget
    obtain ⟨k₀, d₀⟩ := p
    rw [List.map_cons] at hnd
    have hnd' := List.nodup_cons.mp hnd
    rw [assocGet_cons] at hget
    by_cases hk : k₀ = key
    · rw [if_pos hk] at hget
      have hd : d₀ = nd := Option.some.inj hget
      subst hk
      subst hd
      rw [List.foldl_cons]
      rw [foldl_writeLeaf_not_mem rest (writeLeaf st (k₀, d₀)) k₀ hnd'.1]
      exact writeLeaf_value st (k₀, d₀)
    · rw [if_neg hk] at hget
      rw [List.foldl_cons]
      have hst : vsGet (writeLeaf st (k₀, d₀)) key = vsGet st key :=
        writeLeaf_other st (k₀, d₀) key (fun hh => hk hh.symm)
      rw [ih (writeLeaf st (k₀, d₀)) key nd hnd'.2 hget, hst]

/-! ## The module branch of merge_data: dict rebuild characterization -/

theorem assocSet_pairInv {α : Type} (f : α → String) :
    ∀ (d : List (String × α)) (v : α), (∀ p ∈ d, p.1 = f p.2) →
    ∀ p ∈ assocSet d (f v) v, p.1 = f p.2 := by
  intro d
  induction d with
  | nil =>
    intro v _ p hp
    rw [show assocSet ([] : List (String × α)) (f v) v = [(f v, v)] from rfl] at hp
    have h := List.mem_singleton.mp hp
    subst h
    rfl
  | cons q rest ih =>
    intro v hinv p hp
    obtain ⟨k₀, v₀⟩ := q
    by_cases hk : k₀ = f v
    · rw [show assocSet ((k₀, v₀) :: rest) (f v) v = (f v, v) :: rest from by
        simp [assocSet, hk]] at hp
      rcases List.mem_cons.mp hp with h | h
      · subst h; rfl
      · exact hinv p (List.mem_cons_of_mem _ h)
    · rw [show assocSet ((k₀, v₀) :: rest) (f v) v = (k₀, v₀) :: assocSet rest (f v) v from by
        simp [assocSet, hk]] at hp
      rcases List.mem_cons.mp hp with h | h
      · subst h; exact hinv (k₀, v₀) (List.mem_cons_self _ _)
      · exact ih v (fun r hr => hinv r (List.mem_cons_of_mem _ hr)) p h

theorem foldl_assocSet_lookup :
    ∀ (new : List JObj) (d : List (String × JObj)) (q : String),
    assocGet (new.foldl (fun d m => assocSet d (create_module_key m) m) d) q
      = (new.reverse.find? (fun mm => create_module_key mm == q)).or (assocGet d q) := by
  intro new
  induction new with
  | nil => intro d q; rfl
  | cons m rest ih =>
    intro d q
    rw [List.foldl_cons, ih (assocSet d (create_module_key m) m) q]
    rw [List.reverse_cons, List.find?_append]
    cases hf : rest.reverse.find? (fun mm => create_module_key mm == q) with
    | some mm => rfl
    | none =>
      by_cases hq : create_module_key m = q
      · rw [show ([m].find? (fun mm => create_module_key mm == q)) = some m from by
          simp [List.find?, hq]]
        rw [← hq, assocGet_set_self]
        rfl
      · have hbq : (create_module_key m == q) = false := by
          simpa using hq
        rw [show ([m].find? (fun mm => create_module_key mm == q)) = none from by
          simp [List.find?, hbq]]
        rw [assocGet_set_other d (create_module_key m) q m (fun hh => hq hh.symm)]
        rfl

theorem find?_map_snd :
    ∀ (d : List (String × JObj)) (q : String),
    (∀ p ∈ d, p.1 = create_module_key p.2) →
    (d.map (·.2)).find? (fun mm => create_module_key mm == q) = assocGet d q := by
  intro d
  induction d with
  | nil => intro q _; rfl
  | cons p rest ih =>
    intro q hinv
    have hp := hinv p (List.mem_cons_self _ _)
    rw [List.map_cons]
    cases hb : (create_module_key p.2 == q) with
    | true =>
      have hb2 : (p.1 == q) = true := by rw [hp]; exact hb
      simp only [assocGet]
      simp [List.find?, hb, hb2]
    | false =>
      have hb2 : (p.1 == q) = false := by rw [hp]; exact hb
      simp only [assocGet]
      simp only [List.find?, hb, hb2]
      rw [ih q (fun r hr => hinv r (List.mem_cons_of_mem _ hr))]
      rfl

theorem map_key_of_pairInv :
    ∀ (d : List (String × JObj)),
    (∀ p ∈ d, p.1 = create_module_key p.2) →
    (d.map (·.2)).map create_module_key = d.map Prod.fst := by
  intro d
  induction d with
  | nil => intro _; rfl
  | cons p rest ih =>
    intro hinv
    rw [List.map_cons, List.map_cons, List.map_cons]
    rw [ih (fun r hr => hinv r (List.mem_cons_of_mem _ hr))]
    rw [← hinv p (List.mem_cons_self _ _)]

theorem merge_data_modules_spec (old new : List JObj) :
    ((merge_data_modules old new).map create_module_key).Nodup ∧
    ∀ q, (merge_data_modules old new).find? (fun mm => create_module_key mm == q)
      = (old ++ new).reverse.find? (fun mm => create_module_key mm == q) := by
  have hinv : ∀ p ∈ (new.foldl (fun d m => assocSet d (create_module_key m) m)
      (old.foldl (fun d m => assocSet d (create_module_key m) m) [])),
      p.1 = create_module_key p.2 := by
    refine foldl_preserve
      (fun d : List (String × JObj) => ∀ p ∈ d, p.1 = create_module_key p.2) _ ?_ new _ ?_
    · intro d m hd
      exact assocSet_pairInv create_module_key d m hd
    · refine foldl_preserve
        (fun d : List (String × JObj) => ∀ p ∈ d, p.1 = create_module_key p.2) _ ?_ old []
        (fun p hp => absurd hp (List.not_mem_nil p))
      intro d m hd
      exact assocSet_pairInv create_module_key d m hd
  have hkeys : (((new.foldl (fun d m => assocSet d (create_module_key m) m)
      (old.foldl (fun d m => assocSet d (create_module_key m) m) [])).map Prod.fst)).Nodup := by
    refine foldl_preserve
      (fun d : List (String × JObj) => (d.map Prod.fst).Nodup) _ ?_ new _ ?_
    · intro d m hd
      exact assocSet_keys_nodup d (create_module_key m) m hd
    · refine foldl_preserve
        (fun d : List (String × JObj) => (d.map Prod.fst).Nodup) _ ?_ old [] List.nodup_nil
      intro d m hd
      exact assocSet_keys_nodup d (create_module_key m) m hd
  constructor
  · rw [merge_data_modules, map_key_of_pairInv _ hinv]
    exact hkeys
  · intro q
    rw [merge_data_modules, find?_map_snd _ q hinv]
    rw [foldl_assocSet_lookup new _ q, foldl_assocSet_lookup old [] q]
    rw [show assocGet ([] : List (String × JObj)) q = none from rfl]
    rw [List.reverse_append, List.find?_append, Option.or_none]

def c7mref : JObj :=
  [("name", JVal.str "mod"), ("revision", JVal.str "r"), ("organization", JVal.str "o")]

def c7mref0 : JObj :=
  [("name", JVal.str "mod"), ("revision", JVal.str "r"), ("organization", JVal.str "o"),
    ("old", JVal.bool true)]

def c7blk : VendorBlock :=
  ⟨"v", [⟨"p", [⟨"s", [⟨"f", JVal.obj [], [c7mref]⟩]⟩]⟩]⟩

def c7ex : LeafData := ⟨JVal.str "proto", [c7mref0]⟩

def c7st : VStore := [("v/p/s/f", c7ex)]

/-- C7, counterexample to the claimed universal dedup: when no record
previously exists under the leaf key, `populate_implementation` writes the
accumulated modules list as-is — `merged_data = new_data` skips the
`merge_data` dedup — so a batch carrying the same module reference twice
for a fresh leaf stores it twice under the same composite module key. -/
theorem c7_counterexample :
    vsGet (populate_implementation [] [c7blk, c7blk]) "v/p/s/f"
      = some ⟨JVal.obj [], [c7mref, c7mref]⟩ ∧
    ¬ (([c7mref, c7mref].map create_module_key).Nodup) := by
  constructor
  · rfl
  · intro h
    have h2 := List.nodup_cons.mp h
    exact h2.1 (by
      rw [show ([c7mref].map create_module_key)
        = [create_module_key c7mref] from rfl]
      exact List.mem_singleton.mpr rfl)

/-- C7 (amended): a leaf record written by `populate_implementation` over an
*existing* stored record gets the stored protocols together with the
`merge_data`-rebuilt modules list, which carries at most one entry per
composite module key (`Nodup` on the key images) and on each key holds the
last occurrence of the concatenated stored-then-batch list (last-in-batch
wins); a leaf key with *no* stored record receives the accumulated batch
data unchanged, duplicates included. -/
theorem c7_populate_implementation_merge (st : VStore) (blocks : List VendorBlock)
    (key : String) (nd : LeafData)
    (hacc : assocGet (accumulate blocks) key = some nd) :
    (∀ ex, vsGet st key = some ex →
      vsGet (populate_implementation st blocks) key
        = some ⟨ex.protocols, merge_data_modules ex.modules nd.modules⟩ ∧
      ((merge_data_modules ex.modules nd.modules).map create_module_key).Nodup ∧
      ∀ q, (merge_data_modules ex.modules nd.modules).find?
              (fun mm => create_module_key mm == q)
        = (ex.modules ++ nd.modules).reverse.find?
              (fun mm => create_module_key mm == q)) ∧
    (vsGet st key = none →
      vsGet (populate_implementation st blocks) key = some nd) := by
  have hlookup := foldl_writeLeaf_lookup (accumulate blocks) st key nd
    (accumulate_nodup blocks) hacc
  constructor
  · intro ex hex
    rw [hex] at hlookup
    refine ⟨?_, (merge_data_modules_spec ex.modules nd.modules).1,
      (merge_data_modules_spec ex.modules nd.modules).2⟩
    rw [populate_implementation]
    exact hlookup
  · intro hex
    rw [hex] at hlookup
    rw [populate_implementation]
    exact hlookup

/-- Witness: merging one batch block carrying module `mod@r/o` into a leaf
whose stored record already holds an older entry under the same composite
key keeps the stored protocols and rebuilds a dedup-ed modules list. -/
theorem c7_witness :
    vsGet (populate_implementation c7st [c7blk]) "v/p/s/f"
      = some ⟨c7ex.protocols, merge_data_modules c7ex.modules [c7mref]⟩ ∧
    ((merge_data_modules c7ex.modules [c7mref]).map create_module_key).Nodup := by
  have h := (c7_populate_implementation_merge c7st [c7blk] "v/p/s/f"
    ⟨JVal.obj [], [c7mref]⟩ rfl).1 c7ex rfl
  exact ⟨h.1, h.2.1⟩
